import Mathlib

/-!
# pg-mock-time: the interposition layer and its configuration channel

A shallow embedding of `src/pg_mock_time_simple.c` (the preloaded wrappers of
`clock_gettime`, `gettimeofday` and `time`) and of the SQL functions of
`src/pg_mock_time_sql.c`, followed by theorems about them.

Conventions of the embedding.

* `time_t`, `long` and `long long` values are mathematical integers (`Int`).
  Signed overflow is undefined behaviour in C, so the theorems describe the
  executions in which every sum stays inside its type.
* The configuration file is a value of type `ConfFile`: `none` when
  `fopen` fails, `some cs` when it succeeds and the file holds the
  characters `cs`.
* A call of a real libc function is represented by what it produced: its
  return status and the content it left in the output structure.
* The `while` loops are functions defined by well-founded recursion, so they
  are total: every call returns.
* A finite `double` is the rational number it denotes. `floor` and `ceil`
  are exact; a subtraction or multiplication of doubles is the exact result
  rounded to the nearest binary64 value, ties to even (`round_double`).
  NaN, the infinities and overflow to infinity are not represented: the
  conversion of such a value to an integer type is undefined behaviour in C.
* The conversion `(long long)` of a `double` is the integer it denotes, which
  is what C defines when that integer fits the type; outside `in_long` the
  conversion is undefined in C, and the theorems on the SQL functions assume
  `in_long` of the whole seconds.
-/

namespace PgMockTime

/-! ## Data model -/

/-- The `MockConfig` structure of `pg_mock_time_simple.c`. -/
structure MockConfig where
  enabled : Bool
  use_offset : Bool
  fixed_sec : Int
  fixed_nsec : Int
  off_sec : Int
  off_nsec : Int
deriving DecidableEq, Repr

/-- The two fields of `struct timespec`. -/
structure Timespec where
  tv_sec : Int
  tv_nsec : Int
deriving DecidableEq, Repr

/-- The two fields of `struct timeval`. -/
structure Timeval where
  tv_sec : Int
  tv_usec : Int
deriving DecidableEq, Repr

/-- State of `/tmp/pg_mock_time.conf` as `fopen` sees it: `none` when the
file cannot be opened, otherwise its characters. -/
abbrev ConfFile := Option (List Char)

/-- Value of `CLOCK_REALTIME` in the Linux `<time.h>`. -/
def CLOCK_REALTIME : Int := 0

/-- Value of `CLOCK_REALTIME_COARSE` in the Linux `<time.h>`. -/
def CLOCK_REALTIME_COARSE : Int := 5

/-! ## The text format: `fscanf` and `fprintf` for decimal integers -/

/-- The characters `isspace` accepts in the C locale: space, `\t`, `\n`,
vertical tab, form feed, `\r`. -/
def isspace (c : Char) : Bool :=
  c.toNat = 32 || (9 ≤ c.toNat && c.toNat ≤ 13)

/-- The characters `isdigit` accepts. -/
def isdigit (c : Char) : Bool :=
  48 ≤ c.toNat && c.toNat ≤ 57

/-- Leading white space is skipped before a `%d` conversion. -/
def skip_space : List Char → List Char
  | [] => []
  | c :: cs => if isspace c then skip_space cs else c :: cs

/-- Reads the longest run of decimal digits, accumulating its value;
returns the value, the number of digits read and the unread input. -/
def scan_digits : Nat → Nat → List Char → Nat × Nat × List Char
  | acc, k, [] => (acc, k, [])
  | acc, k, c :: cs =>
    if isdigit c then scan_digits (acc * 10 + (c.toNat - 48)) (k + 1) cs
    else (acc, k, c :: cs)

/-- One `%d` (`%ld`, `%lld`) conversion of `fscanf`: white space, an
optional sign, at least one digit. `none` is a matching or input failure. -/
def scan_int (s : List Char) : Option (Int × List Char) :=
  match skip_space s with
  | [] => none
  | c :: cs =>
    if c = '-' then
      match scan_digits 0 0 cs with
      | (_, 0, _) => none
      | (v, _, rest) => some (-(v : Int), rest)
    else if c = '+' then
      match scan_digits 0 0 cs with
      | (_, 0, _) => none
      | (v, _, rest) => some ((v : Int), rest)
    else
      match scan_digits 0 0 (c :: cs) with
      | (_, 0, _) => none
      | (v, _, rest) => some ((v : Int), rest)

/-- The values `fscanf` assigns for a format of `k` integer conversions
separated by white space: it stops at the first conversion that fails. The
length of the result is the number of items assigned. -/
def scan_ints : Nat → List Char → List Int
  | 0, _ => []
  | k + 1, s =>
    match scan_int s with
    | none => []
    | some (v, rest) => v :: scan_ints k rest

/-- The function `read_config`: `fopen`, then
`fscanf(f, "%d %d %lld %ld %lld %ld", ...)`, and success exactly when six
items were assigned (a return value of `EOF` or of fewer items fails the
test `n == 6` alike). The first two items are stored through `%d` into the
`bool` fields: an item `0` reads as false and a non-zero item as true; the
writers only ever emit `0` and `1`. -/
def read_config (file : ConfFile) : Option MockConfig :=
  match file with
  | none => none
  | some cs =>
    match scan_ints 6 cs with
    | [e, u, fsec, fnsec, osec, onsec] => some ⟨e != 0, u != 0, fsec, fnsec, osec, onsec⟩
    | _ => none

/-- Decimal digits of a natural number, most significant first, as `%d`
prints them; `fuel` bounds the number of digits. -/
def put_digits : Nat → Nat → List Char → List Char
  | 0, _, acc => acc
  | fuel + 1, n, acc =>
    let acc1 := Char.ofNat (48 + n % 10) :: acc
    if n / 10 = 0 then acc1 else put_digits fuel (n / 10) acc1

/-- The sign that `%d` prints: a minus for a negative value, nothing
otherwise. -/
def put_sign (v : Int) : List Char :=
  if v < 0 then ['-'] else []

/-- Output of one `%d` (`%ld`, `%lld`) conversion of `fprintf`: the sign,
then the digits of the magnitude. -/
def put_int (v : Int) : List Char :=
  put_sign v ++ put_digits (v.natAbs + 1) v.natAbs []

/-- Output of `fprintf(f, "%d %d %lld %ld %lld %ld\n", ...)`. -/
def record_text (enabled use_offset : Bool) (fixed_sec fixed_nsec off_sec off_nsec : Int) :
    List Char :=
  put_int (if enabled then 1 else 0) ++ ' ' :: (put_int (if use_offset then 1 else 0) ++ ' ' ::
    (put_int fixed_sec ++ ' ' :: (put_int fixed_nsec ++ ' ' ::
      (put_int off_sec ++ ' ' :: (put_int off_nsec ++ ['\n'])))))

/-- The function `write_config` of `pg_mock_time_sql.c`. `opened` tells
whether `fopen(CONFIG_FILE, "w")` succeeded: if so the file is replaced by
the record, otherwise it is left as it was. -/
def write_config (opened : Bool) (old : ConfFile) (enabled use_offset : Bool)
    (fixed_sec fixed_nsec off_sec off_nsec : Int) : ConfFile :=
  if opened then some (record_text enabled use_offset fixed_sec fixed_nsec off_sec off_nsec)
  else old

/-- The function `clear_mock_time`. -/
def clear_mock_time (opened : Bool) (old : ConfFile) : ConfFile :=
  write_config opened old false false 0 0 0 0

/-! ## The interposed entry points -/

/-- First loop of `norm_ts`: carry whole seconds out of `tv_nsec`. -/
def norm_ts_carry (ts : Timespec) : Timespec :=
  if 1000000000 ≤ ts.tv_nsec then
    norm_ts_carry ⟨ts.tv_sec + 1, ts.tv_nsec - 1000000000⟩
  else ts
termination_by ts.tv_nsec.toNat
decreasing_by simp_wf; omega

/-- Second loop of `norm_ts`: borrow seconds while `tv_nsec` is negative. -/
def norm_ts_borrow (ts : Timespec) : Timespec :=
  if ts.tv_nsec < 0 then
    norm_ts_borrow ⟨ts.tv_sec - 1, ts.tv_nsec + 1000000000⟩
  else ts
termination_by (-ts.tv_nsec).toNat
decreasing_by simp_wf; omega

/-- The function `norm_ts`. -/
def norm_ts (ts : Timespec) : Timespec :=
  norm_ts_borrow (norm_ts_carry ts)

/-- The interposed `clock_gettime`. `real_rc` and `real_tp` are the status
the real `clock_gettime` returned and the content it left in `*tp`; the
result is the status returned and the final content of `*tp`. The branch
under `#ifdef CLOCK_REALTIME_COARSE` is present, as on Linux. -/
def clock_gettime (file : ConfFile) (clk_id : Int) (real_rc : Int) (real_tp : Timespec) :
    Int × Timespec :=
  if real_rc ≠ 0 then (real_rc, real_tp)
  else
    match read_config file with
    | none => (0, real_tp)
    | some cfg =>
      if !cfg.enabled then (0, real_tp)
      else if clk_id = CLOCK_REALTIME ∨ clk_id = CLOCK_REALTIME_COARSE then
        if cfg.use_offset then
          (0, norm_ts ⟨real_tp.tv_sec + cfg.off_sec, real_tp.tv_nsec + cfg.off_nsec⟩)
        else
          (0, ⟨cfg.fixed_sec, cfg.fixed_nsec⟩)
      else (0, real_tp)

/-- First loop on `usec` in `gettimeofday`. -/
def usec_carry (tv : Timeval) : Timeval :=
  if 1000000 ≤ tv.tv_usec then
    usec_carry ⟨tv.tv_sec + 1, tv.tv_usec - 1000000⟩
  else tv
termination_by tv.tv_usec.toNat
decreasing_by simp_wf; omega

/-- Second loop on `usec` in `gettimeofday`. -/
def usec_borrow (tv : Timeval) : Timeval :=
  if tv.tv_usec < 0 then
    usec_borrow ⟨tv.tv_sec - 1, tv.tv_usec + 1000000⟩
  else tv
termination_by (-tv.tv_usec).toNat
decreasing_by simp_wf; omega

/-- The interposed `gettimeofday`. `real_rc` and `real_tv` are what the
real `gettimeofday` returned and left in `*tv`. The division of `off_nsec`
and `fixed_nsec` by 1000 is C division, which truncates toward zero. -/
def gettimeofday (file : ConfFile) (real_rc : Int) (real_tv : Timeval) : Int × Timeval :=
  if real_rc ≠ 0 then (real_rc, real_tv)
  else
    match read_config file with
    | none => (0, real_tv)
    | some cfg =>
      if !cfg.enabled then (0, real_tv)
      else if cfg.use_offset then
        (0, usec_borrow (usec_carry
          ⟨real_tv.tv_sec + cfg.off_sec, real_tv.tv_usec + Int.tdiv cfg.off_nsec 1000⟩))
      else
        (0, ⟨cfg.fixed_sec, Int.tdiv cfg.fixed_nsec 1000⟩)

/-- The interposed `time`. `real` is the value of `real_time(NULL)`;
`tloc` is `none` for a null pointer and otherwise the value stored at the
pointer before the call. The result is the value returned and `tloc` after
the call. -/
def time (file : ConfFile) (real : Int) (tloc : Option Int) : Int × Option Int :=
  match read_config file with
  | none => (real, tloc.map fun _ => real)
  | some cfg =>
    if !cfg.enabled then (real, tloc.map fun _ => real)
    else
      let out :=
        if cfg.use_offset then real + cfg.off_sec + (if cfg.off_nsec ≥ 0 then 0 else -1)
        else cfg.fixed_sec
      (out, tloc.map fun _ => out)

/-! ## Sequences of calls -/

/-- One call of an interposed entry point together with what the real
libc function produces for it. -/
inductive Call where
  | clock (clk_id : Int) (real_rc : Int) (real_tp : Timespec)
  | tod (real_rc : Int) (real_tv : Timeval)
  | secs (real : Int) (tloc : Option Int)

/-- What the caller observes after a call. -/
inductive Reply where
  | clock (rc : Int) (tp : Timespec)
  | tod (rc : Int) (tv : Timeval)
  | secs (ret : Int) (tloc : Option Int)
deriving DecidableEq

/-- The reply of the interposed entry point; no entry point writes the
configuration file, so the file is the same for every call of a sequence. -/
def serve (file : ConfFile) : Call → Reply
  | .clock clk rc tp => .clock (clock_gettime file clk rc tp).1 (clock_gettime file clk rc tp).2
  | .tod rc tv => .tod (gettimeofday file rc tv).1 (gettimeofday file rc tv).2
  | .secs real tloc => .secs (time file real tloc).1 (time file real tloc).2

/-- The reply of the real libc function alone. -/
def real_reply : Call → Reply
  | .clock _ rc tp => .clock rc tp
  | .tod rc tv => .tod rc tv
  | .secs real tloc => .secs real (tloc.map fun _ => real)

/-! ## Binary64 arithmetic -/

/-- Rounding of a rational to the nearest integer, a tie going to the even
neighbour. -/
def round_half_even (q : ℚ) : Int :=
  if q - ⌊q⌋ < 1 / 2 then ⌊q⌋
  else if 1 / 2 < q - ⌊q⌋ then ⌊q⌋ + 1
  else if ⌊q⌋ % 2 = 0 then ⌊q⌋ else ⌊q⌋ + 1

/-- Exponent of the unit in the last place of the binary64 values around a
positive `q`: 52 below the binary exponent of `q`, and never below -1074,
the exponent of the smallest subnormal. -/
def ulp_exp (q : ℚ) : Int :=
  max (Int.log 2 q - 52) (-1074)

/-- The binary64 value nearest to a non-negative rational. -/
def round_pos (q : ℚ) : ℚ :=
  round_half_even (q / 2 ^ ulp_exp q) * 2 ^ ulp_exp q

/-- The binary64 value nearest to a rational, ties to even: the result of a
`double` operation whose exact result is `q`. -/
def round_double (q : ℚ) : ℚ :=
  if q < 0 then -round_pos (-q) else round_pos q

/-- Conversion of a `double` to `long` or `long long`: the fractional part
is discarded, that is, truncation toward zero. -/
def to_long (q : ℚ) : Int :=
  if 0 ≤ q then ⌊q⌋ else ⌈q⌉

/-- Range of `long` and `long long` (64 bits, two's complement). -/
def in_long (v : Int) : Bool :=
  decide (-9223372036854775808 ≤ v) && decide (v ≤ 9223372036854775807)

/-! ## The SQL functions -/

/-- The expression `(long) ((s - (double)whole) * 1e9)` common to
`set_mock_time_epoch` and `set_mock_time_offset_seconds`. -/
def frac_nsec (s : ℚ) (whole : Int) : Int :=
  to_long (round_double (round_double (s - round_double (whole : ℚ)) * 1000000000))

/-- The function `set_mock_time_epoch`, on the value `s` of its `float8`
argument. `(long long) floor(s)` is `⌊s⌋`; C defines that conversion only
when `⌊s⌋` fits `long long` (`in_long`). -/
def set_mock_time_epoch (opened : Bool) (old : ConfFile) (s : ℚ) : ConfFile :=
  write_config opened old true false ⌊s⌋ (frac_nsec s ⌊s⌋) 0 0

/-- The function `set_mock_time_offset_seconds`, on the value `s` of its
`float8` argument. `(long long) (s >= 0 ? floor(s) : ceil(s))` is the
integer of that name; C defines the conversion only when it fits
`long long` (`in_long`). -/
def set_mock_time_offset_seconds (opened : Bool) (old : ConfFile) (s : ℚ) : ConfFile :=
  write_config opened old true true 0 0 (if s ≥ 0 then ⌊s⌋ else ⌈s⌉)
    (frac_nsec s (if s ≥ 0 then ⌊s⌋ else ⌈s⌉))

/-- What `snprintf(buf, sizeof(buf), ...)` leaves in the 256-byte `buf`: at
most 255 characters of the formatted text. -/
def snprintf_buf (text : List Char) : List Char :=
  text.take 255

/-- The function `pg_mock_time_status`: the text it returns. Here the
first two items are read into `int` variables and tested against zero. -/
def pg_mock_time_status (file : ConfFile) : List Char :=
  match file with
  | none => snprintf_buf "mock: disabled".toList
  | some cs =>
    match scan_ints 6 cs with
    | [enabled, use_offset, fixed_sec, fixed_nsec, off_sec, off_nsec] =>
      if enabled = 0 then snprintf_buf "mock: disabled".toList
      else if use_offset ≠ 0 then
        snprintf_buf ("mock: enabled (offset) ".toList ++ put_int off_sec ++ " s, ".toList ++
          put_int off_nsec ++ " ns".toList)
      else
        snprintf_buf ("mock: enabled (fixed) ".toList ++ put_int fixed_sec ++ " s, ".toList ++
          put_int fixed_nsec ++ " ns (UNIX epoch)".toList)
    | _ => snprintf_buf "mock: disabled".toList

/-! ## Lemmas on the loops -/

theorem norm_ts_carry_eq (ts : Timespec) (h : 0 ≤ ts.tv_nsec) :
    norm_ts_carry ts = ⟨ts.tv_sec + ts.tv_nsec / 1000000000, ts.tv_nsec % 1000000000⟩ := by
  generalize hk : ts.tv_nsec.toNat = k
  induction k using Nat.strong_induction_on generalizing ts with
  | _ k ih =>
    obtain ⟨s, n⟩ := ts
    simp only at h hk ⊢
    rw [norm_ts_carry]
    simp only
    split
    · rw [ih (n - 1000000000).toNat (by omega) ⟨s + 1, n - 1000000000⟩ (by simp; omega) rfl]
      simp only [Timespec.mk.injEq]
      omega
    · simp only [Timespec.mk.injEq]
      omega

theorem norm_ts_carry_id (ts : Timespec) (h : ts.tv_nsec < 1000000000) :
    norm_ts_carry ts = ts := by
  rw [norm_ts_carry]
  simp [Int.not_le.mpr h]

theorem norm_ts_borrow_eq (ts : Timespec) (h : ts.tv_nsec < 1000000000) :
    norm_ts_borrow ts = ⟨ts.tv_sec + ts.tv_nsec / 1000000000, ts.tv_nsec % 1000000000⟩ := by
  generalize hk : (-ts.tv_nsec).toNat = k
  induction k using Nat.strong_induction_on generalizing ts with
  | _ k ih =>
    obtain ⟨s, n⟩ := ts
    simp only at h hk ⊢
    rw [norm_ts_borrow]
    simp only
    split
    · rw [ih (-(n + 1000000000)).toNat (by omega) ⟨s - 1, n + 1000000000⟩ (by simp; omega) rfl]
      simp only [Timespec.mk.injEq]
      omega
    · simp only [Timespec.mk.injEq]
      omega

/-- Closed form of `norm_ts`: floor division and the non-negative remainder. -/
theorem norm_ts_eq (ts : Timespec) :
    norm_ts ts = ⟨ts.tv_sec + ts.tv_nsec / 1000000000, ts.tv_nsec % 1000000000⟩ := by
  unfold norm_ts
  by_cases h : 0 ≤ ts.tv_nsec
  · rw [norm_ts_carry_eq ts h, norm_ts_borrow_eq _ (by simp only; omega)]
    simp only [Timespec.mk.injEq]
    omega
  · rw [norm_ts_carry_id ts (by omega), norm_ts_borrow_eq ts (by omega)]

theorem usec_carry_eq (tv : Timeval) (h : 0 ≤ tv.tv_usec) :
    usec_carry tv = ⟨tv.tv_sec + tv.tv_usec / 1000000, tv.tv_usec % 1000000⟩ := by
  generalize hk : tv.tv_usec.toNat = k
  induction k using Nat.strong_induction_on generalizing tv with
  | _ k ih =>
    obtain ⟨s, n⟩ := tv
    simp only at h hk ⊢
    rw [usec_carry]
    simp only
    split
    · rw [ih (n - 1000000).toNat (by omega) ⟨s + 1, n - 1000000⟩ (by simp; omega) rfl]
      simp only [Timeval.mk.injEq]
      omega
    · simp only [Timeval.mk.injEq]
      omega

theorem usec_carry_id (tv : Timeval) (h : tv.tv_usec < 1000000) :
    usec_carry tv = tv := by
  rw [usec_carry]
  simp [Int.not_le.mpr h]

theorem usec_borrow_eq (tv : Timeval) (h : tv.tv_usec < 1000000) :
    usec_borrow tv = ⟨tv.tv_sec + tv.tv_usec / 1000000, tv.tv_usec % 1000000⟩ := by
  generalize hk : (-tv.tv_usec).toNat = k
  induction k using Nat.strong_induction_on generalizing tv with
  | _ k ih =>
    obtain ⟨s, n⟩ := tv
    simp only at h hk ⊢
    rw [usec_borrow]
    simp only
    split
    · rw [ih (-(n + 1000000)).toNat (by omega) ⟨s - 1, n + 1000000⟩ (by simp; omega) rfl]
      simp only [Timeval.mk.injEq]
      omega
    · simp only [Timeval.mk.injEq]
      omega

/-- Closed form of the two `usec` loops of `gettimeofday`. -/
theorem usec_norm_eq (tv : Timeval) :
    usec_borrow (usec_carry tv) =
      ⟨tv.tv_sec + tv.tv_usec / 1000000, tv.tv_usec % 1000000⟩ := by
  by_cases h : 0 ≤ tv.tv_usec
  · rw [usec_carry_eq tv h, usec_borrow_eq _ (by simp only; omega)]
    simp only [Timeval.mk.injEq]
    omega
  · rw [usec_carry_id tv (by omega), usec_borrow_eq tv (by omega)]

/-! ## Lemmas on the configuration read -/

/-- The read fails exactly when the file is missing or `fscanf` assigns
fewer than six items. -/
theorem read_config_eq_none_iff (file : ConfFile) :
    read_config file = none ↔
      file = none ∨ ∃ cs, file = some cs ∧ (scan_ints 6 cs).length ≠ 6 := by
  cases file with
  | none => simp [read_config]
  | some cs =>
    simp only [read_config, reduceCtorEq, Option.some.injEq, exists_eq_left', false_or]
    split
    · rename_i h
      simp [h]
    · rename_i h
      simp only [true_iff]
      intro hl
      match hs : scan_ints 6 cs, hl with
      | [a, b, c, d, e, f], _ => exact h a b c d e f hs

/-- A record of six items whose first item is `0` is read as disabled. -/
theorem read_config_disabled (cs : List Char) (u a b c d : Int)
    (h : scan_ints 6 cs = [0, u, a, b, c, d]) :
    ∃ cfg, read_config (some cs) = some cfg ∧ cfg.enabled = false := by
  simp [read_config, h]

theorem clock_gettime_of_none (file : ConfFile) (clk rc : Int) (tp : Timespec)
    (h : read_config file = none) : clock_gettime file clk rc tp = (rc, tp) := by
  unfold clock_gettime
  by_cases hrc : rc = 0 <;> simp [hrc, h]

theorem gettimeofday_of_none (file : ConfFile) (rc : Int) (tv : Timeval)
    (h : read_config file = none) : gettimeofday file rc tv = (rc, tv) := by
  unfold gettimeofday
  by_cases hrc : rc = 0 <;> simp [hrc, h]

theorem time_of_none (file : ConfFile) (real : Int) (tloc : Option Int)
    (h : read_config file = none) : time file real tloc = (real, tloc.map fun _ => real) := by
  simp [time, h]

theorem clock_gettime_of_disabled (file : ConfFile) (cfg : MockConfig) (clk rc : Int)
    (tp : Timespec) (h : read_config file = some cfg) (he : cfg.enabled = false) :
    clock_gettime file clk rc tp = (rc, tp) := by
  unfold clock_gettime
  by_cases hrc : rc = 0 <;> simp [hrc, h, he]

theorem gettimeofday_of_disabled (file : ConfFile) (cfg : MockConfig) (rc : Int)
    (tv : Timeval) (h : read_config file = some cfg) (he : cfg.enabled = false) :
    gettimeofday file rc tv = (rc, tv) := by
  unfold gettimeofday
  by_cases hrc : rc = 0 <;> simp [hrc, h, he]

theorem time_of_disabled (file : ConfFile) (cfg : MockConfig) (real : Int)
    (tloc : Option Int) (h : read_config file = some cfg) (he : cfg.enabled = false) :
    time file real tloc = (real, tloc.map fun _ => real) := by
  simp [time, h, he]

/-! ## Lemmas on the text format -/

theorem isdigit_digit_char (n : Nat) : isdigit (Char.ofNat (48 + n % 10)) = true := by
  have h : n % 10 < 10 := Nat.mod_lt _ (by decide)
  generalize n % 10 = d at h
  interval_cases d <;> decide

theorem not_isspace_of_isdigit (c : Char) (h : isdigit c = true) : isspace c = false := by
  simp only [isdigit, Bool.and_eq_true, decide_eq_true_eq] at h
  simp only [isspace, Bool.or_eq_false_iff, decide_eq_false_iff_not, Bool.and_eq_false_imp,
    decide_eq_true_eq]
  omega

theorem ne_minus_of_isdigit (c : Char) (h : isdigit c = true) : c ≠ '-' := by
  intro hc
  subst hc
  revert h
  decide

theorem ne_plus_of_isdigit (c : Char) (h : isdigit c = true) : c ≠ '+' := by
  intro hc
  subst hc
  revert h
  decide

/-- The digits printed for a number form a non-empty run of digit characters
put in front of the accumulator. -/
theorem put_digits_run (fuel n : Nat) (acc : List Char) :
    ∃ ds, ds ≠ [] ∧ (∀ c ∈ ds, isdigit c = true) ∧
      put_digits (fuel + 1) n acc = ds ++ acc := by
  induction fuel generalizing n acc with
  | zero =>
    refine ⟨[Char.ofNat (48 + n % 10)], by simp, ?_, ?_⟩
    · intro c hc
      rw [List.mem_singleton] at hc
      rw [hc]
      exact isdigit_digit_char n
    · simp only [put_digits]
      split <;> rfl
  | succ fuel ih =>
    rw [put_digits]
    split
    · refine ⟨[Char.ofNat (48 + n % 10)], by simp, ?_, rfl⟩
      intro c hc
      rw [List.mem_singleton] at hc
      rw [hc]
      exact isdigit_digit_char n
    · obtain ⟨ds, hne, hd, he⟩ := ih (n / 10) (Char.ofNat (48 + n % 10) :: acc)
      refine ⟨ds ++ [Char.ofNat (48 + n % 10)], by simp, ?_, ?_⟩
      · intro c hc
        rw [List.mem_append, List.mem_singleton] at hc
        rcases hc with hc | hc
        · exact hd c hc
        · rw [hc]
          exact isdigit_digit_char n
      · rw [he]
        simp

/-- Shape of the output of `%d`: the sign, then a non-empty run of digits. -/
theorem put_int_shape (v : Int) :
    ∃ ds, ds ≠ [] ∧ (∀ c ∈ ds, isdigit c = true) ∧ put_int v = put_sign v ++ ds := by
  obtain ⟨ds, hne, hd, he⟩ := put_digits_run v.natAbs v.natAbs []
  exact ⟨ds, hne, hd, by rw [put_int, he, List.append_nil]⟩

/-- Scanning a run of digits followed by input that does not start with a
digit consumes exactly the run. -/
theorem scan_digits_run (ds rest : List Char) (acc k : Nat)
    (hd : ∀ c ∈ ds, isdigit c = true) (hr : ∀ c r, rest = c :: r → isdigit c = false) :
    ∃ v, scan_digits acc k (ds ++ rest) = (v, k + ds.length, rest) := by
  induction ds generalizing acc k with
  | nil =>
    cases rest with
    | nil => exact ⟨acc, by simp [scan_digits]⟩
    | cons c r => exact ⟨acc, by simp [scan_digits, hr c r rfl]⟩
  | cons d ds ih =>
    obtain ⟨v, hv⟩ := ih (acc * 10 + (d.toNat - 48)) (k + 1)
      (fun c hc => hd c (List.mem_cons_of_mem _ hc))
    refine ⟨v, ?_⟩
    have e : k + 1 + ds.length = k + (ds.length + 1) := by omega
    rw [List.cons_append, scan_digits, if_pos (hd d (List.mem_cons_self _ _)), hv, e,
      List.length_cons]

theorem scan_int_nil : scan_int [] = none := rfl

theorem scan_ints_nil (k : Nat) : scan_ints k [] = [] := by
  cases k <;> rfl

theorem scan_int_minus : scan_int ['-'] = none := by decide

theorem scan_int_space (q : List Char) : scan_int (' ' :: q) = scan_int q := by
  have h : skip_space (' ' :: q) = skip_space q := by
    rw [skip_space, if_pos (by decide)]
  simp only [scan_int, h]

theorem scan_ints_space (k : Nat) (q : List Char) :
    scan_ints k (' ' :: q) = scan_ints k q := by
  cases k with
  | zero => rfl
  | succ k => simp only [scan_ints, scan_int_space]

/-- An unsigned run of digits followed by input that does not start with a
digit is converted, and the conversion stops at the end of the run. -/
theorem scan_int_digits (ds rest : List Char) (hne : ds ≠ [])
    (hd : ∀ c ∈ ds, isdigit c = true) (hr : ∀ c r, rest = c :: r → isdigit c = false) :
    ∃ w, scan_int (ds ++ rest) = some (w, rest) := by
  obtain ⟨v, hv⟩ := scan_digits_run ds rest 0 0 hd hr
  cases ds with
  | nil => exact absurd rfl hne
  | cons d t =>
    have hdd : isdigit d = true := hd d (List.mem_cons_self _ _)
    have hsk : skip_space (d :: t ++ rest) = d :: (t ++ rest) := by
      rw [List.cons_append, skip_space, if_neg (by simp [not_isspace_of_isdigit d hdd])]
    refine ⟨(v : Int), ?_⟩
    rw [List.cons_append] at hv
    simp only [List.length_cons, Nat.zero_add] at hv
    simp only [scan_int, hsk, if_neg (ne_minus_of_isdigit d hdd),
      if_neg (ne_plus_of_isdigit d hdd), hv]

/-- A minus sign and a run of digits followed by input that does not start
with a digit is converted, and the conversion stops at the end of the run. -/
theorem scan_int_minus_digits (ds rest : List Char) (hne : ds ≠ [])
    (hd : ∀ c ∈ ds, isdigit c = true) (hr : ∀ c r, rest = c :: r → isdigit c = false) :
    ∃ w, scan_int ('-' :: (ds ++ rest)) = some (w, rest) := by
  obtain ⟨v, hv⟩ := scan_digits_run ds rest 0 0 hd hr
  cases ds with
  | nil => exact absurd rfl hne
  | cons d t =>
    have hsk : skip_space ('-' :: (d :: t ++ rest)) = '-' :: (d :: t ++ rest) := by
      rw [skip_space, if_neg (by decide)]
    refine ⟨-(v : Int), ?_⟩
    simp only [List.length_cons, Nat.zero_add] at hv
    simp only [scan_int, hsk, if_true, hv]

/-- A printed integer followed by input that does not start with a digit is
converted, and the conversion stops right after it. -/
theorem scan_int_put_int (v : Int) (rest : List Char)
    (hr : ∀ c r, rest = c :: r → isdigit c = false) :
    ∃ w, scan_int (put_int v ++ rest) = some (w, rest) := by
  obtain ⟨ds, hne, hd, he⟩ := put_int_shape v
  rw [he, put_sign]
  split
  · exact scan_int_minus_digits ds rest hne hd hr
  · exact scan_int_digits ds rest hne hd hr

/-- On a prefix of a printed integer the conversion either fails or uses up
the whole input. -/
theorem scan_int_prefix_put_int (v : Int) (p : List Char) (hp : p <+: put_int v) :
    scan_int p = none ∨ ∃ w, scan_int p = some (w, []) := by
  obtain ⟨ds, _, hd, he⟩ := put_int_shape v
  rw [he, put_sign] at hp
  have key : ∀ t : List Char, t <+: ds →
      (scan_int t = none ∨ ∃ w, scan_int t = some (w, [])) ∧
      (scan_int ('-' :: t) = none ∨ ∃ w, scan_int ('-' :: t) = some (w, [])) := by
    intro t ht
    have htd : ∀ c ∈ t, isdigit c = true := fun c hc => hd c (ht.subset hc)
    by_cases hne : t = []
    · subst hne
      exact ⟨Or.inl scan_int_nil, Or.inl scan_int_minus⟩
    · have h1 := scan_int_digits t [] hne htd (by simp)
      have h2 := scan_int_minus_digits t [] hne htd (by simp)
      rw [List.append_nil] at h1 h2
      exact ⟨Or.inr h1, Or.inr h2⟩
  split at hp
  · rw [List.singleton_append, List.prefix_cons_iff] at hp
    rcases hp with hp | ⟨t, hp, ht⟩
    · subst hp
      exact Or.inl scan_int_nil
    · subst hp
      exact (key t ht).2
  · rw [List.nil_append] at hp
    exact (key p hp).1

/-- A prefix of `f ++ c :: t` is a prefix of `f`, or it is `f`, `c` and a
prefix of `t`. -/
theorem prefix_append_cons (f t p : List Char) (c : Char) (hp : p <+: f ++ c :: t) :
    p <+: f ∨ ∃ q, p = f ++ c :: q ∧ q <+: t := by
  induction f generalizing p with
  | nil =>
    rw [List.nil_append, List.prefix_cons_iff] at hp
    rcases hp with hp | ⟨q, hp, hq⟩
    · exact Or.inl (by rw [hp])
    · exact Or.inr ⟨q, by rw [hp, List.nil_append], hq⟩
  | cons x f ih =>
    rw [List.cons_append, List.prefix_cons_iff] at hp
    rcases hp with hp | ⟨p1, hp, hp1⟩
    · exact Or.inl (by rw [hp]; exact List.nil_prefix)
    · rcases ih p1 hp1 with h | ⟨q, hq, hqt⟩
      · exact Or.inl (by rw [hp]; exact (List.prefix_cons_inj x).mpr h)
      · exact Or.inr ⟨q, by rw [hp, hq, List.cons_append], hqt⟩

/-- One field of a cut record: either the cut falls inside the field, and at
most one item is assigned from here on, or the field is converted and the
scan goes on with a prefix of what follows the separator. -/
theorem scan_ints_field (k : Nat) (v : Int) (t p : List Char)
    (hp : p <+: put_int v ++ ' ' :: t) :
    (scan_ints (k + 1) p).length ≤ 1 ∨
      ∃ w q, q <+: t ∧ scan_ints (k + 1) p = w :: scan_ints k q := by
  rcases prefix_append_cons (put_int v) t p ' ' hp with h | ⟨q, hq, hqt⟩
  · left
    rcases scan_int_prefix_put_int v p h with h0 | ⟨w, hw⟩
    · simp [scan_ints, h0]
    · simp [scan_ints, hw, scan_ints_nil]
  · right
    obtain ⟨w, hw⟩ := scan_int_put_int v (' ' :: q) (by
      intro c r hcr
      rw [List.cons.injEq] at hcr
      rw [← hcr.1]
      decide)
    refine ⟨w, q, hqt, ?_⟩
    rw [hq, scan_ints, hw]
    simp only [scan_ints_space]

/-- A record cut before the first digit of its sixth field yields fewer
than six items. -/
theorem scan_ints_cut_record (e u : Bool) (a b c d : Int) (p : List Char)
    (hp : p <+: put_int (if e then 1 else 0) ++ ' ' :: (put_int (if u then 1 else 0) ++ ' ' ::
      (put_int a ++ ' ' :: (put_int b ++ ' ' :: (put_int c ++ ' ' :: put_sign d))))) :
    (scan_ints 6 p).length ≤ 5 := by
  rcases scan_ints_field 5 _ _ p hp with h | ⟨w1, q1, hq1, h1⟩
  · simp only [Nat.reduceAdd] at h; omega
  rcases scan_ints_field 4 _ _ q1 hq1 with h | ⟨w2, q2, hq2, h2⟩
  · rw [h1, List.length_cons]; simp only [Nat.reduceAdd] at h; omega
  rcases scan_ints_field 3 _ _ q2 hq2 with h | ⟨w3, q3, hq3, h3⟩
  · rw [h1, h2, List.length_cons, List.length_cons]; simp only [Nat.reduceAdd] at h; omega
  rcases scan_ints_field 2 _ _ q3 hq3 with h | ⟨w4, q4, hq4, h4⟩
  · rw [h1, h2, h3, List.length_cons, List.length_cons, List.length_cons]; simp only [Nat.reduceAdd] at h; omega
  rcases scan_ints_field 1 _ _ q4 hq4 with h | ⟨w5, q5, hq5, h5⟩
  · rw [h1, h2, h3, h4, List.length_cons, List.length_cons, List.length_cons,
      List.length_cons]
    simp only [Nat.reduceAdd] at h; omega
  have h6 : scan_ints 1 q5 = [] := by
    rw [put_sign] at hq5
    split at hq5
    · rw [List.prefix_cons_iff] at hq5
      rcases hq5 with h | ⟨t, ht, htn⟩
      · rw [h]; rfl
      · rw [List.prefix_nil] at htn
        rw [ht, htn]
        decide
    · rw [List.prefix_nil] at hq5
      rw [hq5]; rfl
  rw [h1, h2, h3, h4, h5, h6]
  simp

/-! ## The read paths -/

/-- C1. For a clock id other than `CLOCK_REALTIME` and
`CLOCK_REALTIME_COARSE`, whatever the state of the configuration file
(missing, malformed, disabled, enabled in either mode with any field
values), `clock_gettime` returns exactly the status and the timestamp the
real `clock_gettime` produced. -/
theorem clock_gettime_other_clock (file : ConfFile) (clk_id real_rc : Int) (real_tp : Timespec)
    (h1 : clk_id ≠ CLOCK_REALTIME) (h2 : clk_id ≠ CLOCK_REALTIME_COARSE) :
    clock_gettime file clk_id real_rc real_tp = (real_rc, real_tp) := by
  unfold clock_gettime
  by_cases hrc : real_rc = 0
  · subst hrc
    cases read_config file with
    | none => simp
    | some cfg => cases he : cfg.enabled <;> simp [h1, h2]
  · simp [hrc]

/-- Instance of C1: clock id 1 (`CLOCK_MONOTONIC`) under an enabled
Offset record. -/
theorem clock_gettime_other_clock_witness :
    read_config (some "1 1 0 0 -2 -250000000\n".toList) =
        some ⟨true, true, 0, 0, -2, -250000000⟩ ∧
      clock_gettime (some "1 1 0 0 -2 -250000000\n".toList) 1 0 ⟨1700000000, 999999999⟩ =
        (0, ⟨1700000000, 999999999⟩) :=
  ⟨by decide, clock_gettime_other_clock _ 1 0 _ (by decide) (by decide)⟩

/-- C2. When the file is missing or `fscanf` assigns fewer than six
items, each of `clock_gettime`, `gettimeofday` and `time` gives the result
it gives under a well-formed record whose first field is `0`, and that
result is the reading of the real function (for `time`, also the value
stored through a non-null `tloc`). -/
theorem malformed_same_as_disabled (file : ConfFile) (cs0 : List Char) (u a b c d : Int)
    (clk_id real_rc : Int) (real_tp : Timespec) (rc_tod : Int) (real_tv : Timeval)
    (real : Int) (tloc : Option Int)
    (hbad : file = none ∨ ∃ cs, file = some cs ∧ (scan_ints 6 cs).length ≠ 6)
    (hzero : scan_ints 6 cs0 = [0, u, a, b, c, d]) :
    (clock_gettime file clk_id real_rc real_tp = clock_gettime (some cs0) clk_id real_rc real_tp ∧
      clock_gettime file clk_id real_rc real_tp = (real_rc, real_tp)) ∧
    (gettimeofday file rc_tod real_tv = gettimeofday (some cs0) rc_tod real_tv ∧
      gettimeofday file rc_tod real_tv = (rc_tod, real_tv)) ∧
    (time file real tloc = time (some cs0) real tloc ∧
      time file real tloc = (real, tloc.map fun _ => real)) := by
  have hn : read_config file = none := (read_config_eq_none_iff file).mpr hbad
  obtain ⟨cfg, hcfg, he⟩ := read_config_disabled cs0 u a b c d hzero
  rw [clock_gettime_of_none file _ _ _ hn, gettimeofday_of_none file _ _ hn,
    time_of_none file _ _ hn, clock_gettime_of_disabled _ cfg _ _ _ hcfg he,
    gettimeofday_of_disabled _ cfg _ _ hcfg he, time_of_disabled _ cfg _ _ hcfg he]
  simp

/-- Instance of C2: a record cut after its fifth field against the record
that `Clear` writes. -/
theorem malformed_same_as_disabled_witness :
    (scan_ints 6 "1 0 100 500000000 0".toList).length ≠ 6 ∧
    scan_ints 6 "0 0 0 0 0 0\n".toList = [0, 0, 0, 0, 0, 0] ∧
    time (some "1 0 100 500000000 0".toList) 1700000000 (some 7) =
      (1700000000, some 1700000000) :=
  ⟨by decide, by decide,
    (malformed_same_as_disabled (some "1 0 100 500000000 0".toList) "0 0 0 0 0 0\n".toList
      0 0 0 0 0 0 0 ⟨0, 0⟩ 0 ⟨0, 0⟩ 1700000000 (some 7)
      (Or.inr ⟨_, rfl, by decide⟩) (by decide)).2.2.2⟩

/-- C3. Under an enabled Offset record with `off_nsec` in `[0, 1e9)` and a
real reading with `tv_nsec` in `[0, 1e9)`, `clock_gettime(CLOCK_REALTIME)`
returns status 0 and a timestamp `(s, n)` with `n` in `[0, 1e9)` whose total
in nanoseconds is that of the real reading plus the offset; the seconds are
`rs + os + 1` exactly when `rn + on ≥ 1e9`, and `rs + os` otherwise. -/
theorem clock_gettime_offset (file : ConfFile) (fsec fnsec osec onsec rs rn : Int)
    (hcfg : read_config file = some ⟨true, true, fsec, fnsec, osec, onsec⟩)
    (hrn0 : 0 ≤ rn) (hrn : rn < 1000000000) (hon0 : 0 ≤ onsec) (hon : onsec < 1000000000) :
    (clock_gettime file CLOCK_REALTIME 0 ⟨rs, rn⟩).1 = 0 ∧
    0 ≤ (clock_gettime file CLOCK_REALTIME 0 ⟨rs, rn⟩).2.tv_nsec ∧
    (clock_gettime file CLOCK_REALTIME 0 ⟨rs, rn⟩).2.tv_nsec < 1000000000 ∧
    (clock_gettime file CLOCK_REALTIME 0 ⟨rs, rn⟩).2.tv_sec * 1000000000 +
        (clock_gettime file CLOCK_REALTIME 0 ⟨rs, rn⟩).2.tv_nsec =
      (rs + osec) * 1000000000 + rn + onsec ∧
    (clock_gettime file CLOCK_REALTIME 0 ⟨rs, rn⟩).2.tv_sec =
      (if 1000000000 ≤ rn + onsec then rs + osec + 1 else rs + osec) := by
  have h : clock_gettime file CLOCK_REALTIME 0 ⟨rs, rn⟩ =
      (0, ⟨rs + osec + (rn + onsec) / 1000000000, (rn + onsec) % 1000000000⟩) := by
    simp [clock_gettime, hcfg, norm_ts_eq]
  rw [h]
  dsimp only
  refine ⟨rfl, ?_, ?_, ?_, ?_⟩
  · omega
  · omega
  · omega
  · split <;> omega

/-- Instance of C3: a negative whole-second offset and a carry out of the
nanoseconds; the seconds are `1700000000 - 5 + 1`. -/
theorem clock_gettime_offset_witness :
    read_config (some "1 1 0 0 -5 600000000\n".toList) =
        some ⟨true, true, 0, 0, -5, 600000000⟩ ∧
    (clock_gettime (some "1 1 0 0 -5 600000000\n".toList) CLOCK_REALTIME 0
        ⟨1700000000, 700000000⟩).2.tv_sec =
      (if (1000000000 : Int) ≤ 700000000 + 600000000 then 1700000000 + -5 + 1
        else 1700000000 + -5) :=
  ⟨by decide, (clock_gettime_offset (some "1 1 0 0 -5 600000000\n".toList) 0 0 (-5) 600000000
    1700000000 700000000 (by decide) (by decide) (by decide) (by decide) (by decide)).2.2.2.2⟩

/-- C4. Under an enabled Fixed record `(fs, fn)` the substituted results do
not depend on the real reading: for any two successful real readings,
`clock_gettime(CLOCK_REALTIME)` returns `(fs, fn)`, `gettimeofday` returns
`(fs, fn / 1000)` with the division truncating toward zero, and `time`
returns `fs`. -/
theorem fixed_mode_override (file : ConfFile) (fsec fnsec osec onsec : Int)
    (r1 r2 : Timespec) (v1 v2 : Timeval) (t1 t2 : Int) (l1 l2 : Option Int)
    (hcfg : read_config file = some ⟨true, false, fsec, fnsec, osec, onsec⟩) :
    clock_gettime file CLOCK_REALTIME 0 r1 = (0, ⟨fsec, fnsec⟩) ∧
    clock_gettime file CLOCK_REALTIME 0 r2 = (0, ⟨fsec, fnsec⟩) ∧
    gettimeofday file 0 v1 = (0, ⟨fsec, Int.tdiv fnsec 1000⟩) ∧
    gettimeofday file 0 v2 = (0, ⟨fsec, Int.tdiv fnsec 1000⟩) ∧
    (time file t1 l1).1 = fsec ∧ (time file t2 l2).1 = fsec := by
  simp [clock_gettime, gettimeofday, time, hcfg]

/-- Instance of C4 on the record `1 0 100 500000000 0 0`. -/
theorem fixed_mode_override_witness :
    read_config (some "1 0 100 500000000 0 0\n".toList) =
        some ⟨true, false, 100, 500000000, 0, 0⟩ ∧
    clock_gettime (some "1 0 100 500000000 0 0\n".toList) CLOCK_REALTIME 0 ⟨1700000000, 5⟩ =
      (0, ⟨100, 500000000⟩) ∧
    (time (some "1 0 100 500000000 0 0\n".toList) 1700000000 none).1 = 100 :=
  ⟨by decide,
    (fixed_mode_override _ 100 500000000 0 0 ⟨1700000000, 5⟩ ⟨3, 4⟩ ⟨0, 0⟩ ⟨1, 1⟩
      1700000000 1700000000 none none (by decide)).1,
    (fixed_mode_override _ 100 500000000 0 0 ⟨1700000000, 5⟩ ⟨3, 4⟩ ⟨0, 0⟩ ⟨1, 1⟩
      1700000000 1700000000 none none (by decide)).2.2.2.2.1⟩

/-- C5. Under an enabled Offset record `(os, on)` with `-1e9 < on < 1e9`,
`time` returns `T + os` when `on ≥ 0` and `T + os - 1` when `on < 0`, that
is `T` plus the floor of `(os * 1e9 + on) / 1e9`, and stores the same value
through a non-null `tloc`. With the record `1 1 0 0 -2 -250000000` (the one
written for an offset of -2.25 seconds) it returns `T - 3`. -/
theorem time_offset_floor (file : ConfFile) (fsec fnsec osec onsec T : Int) (tloc : Option Int)
    (hcfg : read_config file = some ⟨true, true, fsec, fnsec, osec, onsec⟩)
    (hlo : -1000000000 < onsec) (hhi : onsec < 1000000000) :
    time file T tloc =
      (T + Int.fdiv (osec * 1000000000 + onsec) 1000000000,
        tloc.map fun _ => T + Int.fdiv (osec * 1000000000 + onsec) 1000000000) ∧
    (0 ≤ onsec → (time file T tloc).1 = T + osec) ∧
    (onsec < 0 → (time file T tloc).1 = T + osec - 1) ∧
    time (some (record_text true true 0 0 (-2) (-250000000))) T tloc =
      (T - 3, tloc.map fun _ => T - 3) := by
  have hf : Int.fdiv (osec * 1000000000 + onsec) 1000000000 =
      osec + (if onsec ≥ 0 then 0 else -1) := by
    rw [Int.fdiv_eq_ediv _ (by decide)]
    split <;> omega
  have h : time file T tloc =
      (T + osec + (if onsec ≥ 0 then 0 else -1),
        tloc.map fun _ => T + osec + (if onsec ≥ 0 then 0 else -1)) := by
    simp [time, hcfg]
  have h225 : read_config (some (record_text true true 0 0 (-2) (-250000000))) =
      some ⟨true, true, 0, 0, -2, -250000000⟩ := by decide
  refine ⟨?_, ?_, ?_, ?_⟩
  · rw [h, hf, Int.add_assoc]
  · intro h0
    rw [h]
    simp [h0]
  · intro h0
    rw [h]
    simp [Int.not_le.mpr h0]
    omega
  · simp only [time, h225]
    have e : T + -2 + -1 = T - 3 := by omega
    simp [e]

/-- Instance of C5: real seconds 1700000000, offset record of -2.25 s,
non-null `tloc`. -/
theorem time_offset_floor_witness :
    read_config (some "1 1 0 0 -2 -250000000\n".toList) =
        some ⟨true, true, 0, 0, -2, -250000000⟩ ∧
    ((-250000000 : Int) < 0 →
      (time (some "1 1 0 0 -2 -250000000\n".toList) 1700000000 (some 0)).1 =
        1700000000 + -2 - 1) :=
  ⟨by decide, (time_offset_floor (some "1 1 0 0 -2 -250000000\n".toList) 0 0 (-2) (-250000000)
    1700000000 (some 0) (by decide) (by decide) (by decide)).2.2.1⟩

/-- C6. Under an enabled Offset record with any integer `off_nsec`,
`gettimeofday` returns status 0 and `(s, u)` with `u` in `[0, 1e6)` and
`s * 1e6 + u = (rs + os) * 1e6 + ru + q`, where `q` is `off_nsec / 1000`
truncated toward zero. This holds for every real reading `(rs, ru)`, in
particular for `ru` in `[0, 1e6)`. -/
theorem gettimeofday_offset (file : ConfFile) (fsec fnsec osec onsec rs ru : Int)
    (hcfg : read_config file = some ⟨true, true, fsec, fnsec, osec, onsec⟩) :
    (gettimeofday file 0 ⟨rs, ru⟩).1 = 0 ∧
    0 ≤ (gettimeofday file 0 ⟨rs, ru⟩).2.tv_usec ∧
    (gettimeofday file 0 ⟨rs, ru⟩).2.tv_usec < 1000000 ∧
    (gettimeofday file 0 ⟨rs, ru⟩).2.tv_sec * 1000000 + (gettimeofday file 0 ⟨rs, ru⟩).2.tv_usec =
      (rs + osec) * 1000000 + ru + Int.tdiv onsec 1000 := by
  have h : gettimeofday file 0 ⟨rs, ru⟩ =
      (0, ⟨rs + osec + (ru + Int.tdiv onsec 1000) / 1000000,
        (ru + Int.tdiv onsec 1000) % 1000000⟩) := by
    simp [gettimeofday, hcfg, usec_norm_eq]
  rw [h]
  dsimp only
  generalize Int.tdiv onsec 1000 = q
  refine ⟨rfl, ?_, ?_, ?_⟩ <;> omega

/-- Instance of C6: the offset record of -2.25 s, whose microsecond part is
`-250000000 / 1000 = -250000`, on a real reading with 100 microseconds. -/
theorem gettimeofday_offset_witness :
    read_config (some "1 1 0 0 -2 -250000000\n".toList) =
        some ⟨true, true, 0, 0, -2, -250000000⟩ ∧
    0 ≤ (gettimeofday (some "1 1 0 0 -2 -250000000\n".toList) 0 ⟨1700000000, 100⟩).2.tv_usec :=
  ⟨by decide, (gettimeofday_offset (some "1 1 0 0 -2 -250000000\n".toList) 0 0 (-2)
    (-250000000) 1700000000 100 (by decide)).2.1⟩

/-- C7. When the real function returns a non-zero status, `clock_gettime`
(for every clock id) and `gettimeofday` return that status and leave the
output as the real function left it, the same for every state of the
configuration file. -/
theorem delegate_failure_returned (file : ConfFile) (clk_id rc_clock rc_tod : Int)
    (real_tp : Timespec) (real_tv : Timeval) (h1 : rc_clock ≠ 0) (h2 : rc_tod ≠ 0) :
    clock_gettime file clk_id rc_clock real_tp = (rc_clock, real_tp) ∧
    gettimeofday file rc_tod real_tv = (rc_tod, real_tv) := by
  simp [clock_gettime, gettimeofday, h1, h2]

/-- Instance of C7: status -1 under an enabled Fixed record, on
`CLOCK_REALTIME`. -/
theorem delegate_failure_returned_witness :
    read_config (some "1 0 100 500000000 0 0\n".toList) =
        some ⟨true, false, 100, 500000000, 0, 0⟩ ∧
    clock_gettime (some "1 0 100 500000000 0 0\n".toList) CLOCK_REALTIME (-1) ⟨7, 8⟩ =
        (-1, ⟨7, 8⟩) ∧
    gettimeofday (some "1 0 100 500000000 0 0\n".toList) (-1) ⟨7, 8⟩ = (-1, ⟨7, 8⟩) :=
  ⟨by decide, delegate_failure_returned _ CLOCK_REALTIME (-1) (-1) ⟨7, 8⟩ ⟨7, 8⟩
    (by decide) (by decide)⟩

/-- C8. The interposed `time` does not test the value of the real `time`:
when the real function returns -1, an enabled Fixed record makes the result
`fixed_sec`, and an enabled Offset record shifts the -1. -/
theorem time_replaces_failure_value :
    time (some "1 0 100 0 0 0\n".toList) (-1) none = (100, none) ∧
    time (some "1 1 0 0 5 0\n".toList) (-1) (some 0) = (4, some 4) := by
  decide

/-! ## The configuration channel -/

/-- C9, as stated, fails when `fopen` for writing fails: `write_config`
then writes nothing, the previous record stays in force, and `time` keeps
returning the fixed value instead of the real one. -/
theorem clear_unopened_counterexample :
    clear_mock_time false (some "1 0 100 0 0 0\n".toList) = some "1 0 100 0 0 0\n".toList ∧
    serve (clear_mock_time false (some "1 0 100 0 0 0\n".toList)) (.secs 1700000000 none) =
      .secs 100 none ∧
    serve (clear_mock_time false (some "1 0 100 0 0 0\n".toList)) (.secs 1700000000 none) ≠
      real_reply (.secs 1700000000 none) := by
  decide

/-- C9, amended. When `fopen` for writing succeeds, `clear_mock_time`
leaves the file holding exactly `0 0 0 0 0 0` and a newline, whatever it
held before; `read_config` reads that text as a disabled record; and every
call in every sequence of later calls of `clock_gettime` (any clock id),
`gettimeofday` and `time` gets exactly the reply of the real function. -/
theorem clear_then_real (old : ConfFile) (calls : List Call) :
    clear_mock_time true old = some "0 0 0 0 0 0\n".toList ∧
    read_config (clear_mock_time true old) = some ⟨false, false, 0, 0, 0, 0⟩ ∧
    calls.map (serve (clear_mock_time true old)) = calls.map real_reply := by
  have hw : clear_mock_time true old = some "0 0 0 0 0 0\n".toList := by
    simp only [clear_mock_time, write_config, if_true]
    decide
  have hr : read_config (clear_mock_time true old) = some ⟨false, false, 0, 0, 0, 0⟩ := by
    rw [hw]
    decide
  refine ⟨hw, hr, ?_⟩
  apply List.map_congr_left
  intro call _
  cases call with
  | clock clk rc tp =>
    simp only [serve, real_reply, clock_gettime_of_disabled _ _ clk rc tp hr rfl]
  | tod rc tv =>
    simp only [serve, real_reply, gettimeofday_of_disabled _ _ rc tv hr rfl]
  | secs real tloc =>
    simp only [serve, real_reply, time_of_disabled _ _ real tloc hr rfl]

/-- C10, as stated, fails for a cut inside the sixth field: the first 13
characters of the record `1 1 0 0 -2 -250000000` are read as a complete
record with `off_nsec = -2`, and `clock_gettime(CLOCK_REALTIME)` shifts the
real reading by that value, which no writer wrote. -/
theorem torn_read_counterexample :
    "1 1 0 0 -2 -2".toList <+: record_text true true 0 0 (-2) (-250000000) ∧
    "1 1 0 0 -2 -2".toList ≠ record_text true true 0 0 (-2) (-250000000) ∧
    read_config (some "1 1 0 0 -2 -2".toList) = some ⟨true, true, 0, 0, -2, -2⟩ ∧
    clock_gettime (some "1 1 0 0 -2 -2".toList) CLOCK_REALTIME 0 ⟨1700000000, 500000000⟩ =
      (0, ⟨1699999998, 499999998⟩) := by
  have hr : read_config (some "1 1 0 0 -2 -2".toList) = some ⟨true, true, 0, 0, -2, -2⟩ := by
    decide
  refine ⟨by decide, by decide, hr, ?_⟩
  simp only [clock_gettime, hr, norm_ts_eq]
  decide

/-- C10, amended. For every record `write_config` can emit and every
prefix of it that stops before the first digit of the sixth field,
`read_config` fails, so `clock_gettime`, `gettimeofday` and `time` return
the reading of the real function. -/
theorem torn_read_fails_closed (e u : Bool) (a b c d : Int) (p : List Char)
    (clk_id real_rc : Int) (real_tp : Timespec) (rc_tod : Int) (real_tv : Timeval)
    (real : Int) (tloc : Option Int)
    (hp : p <+: record_text e u a b c d)
    (hcut : p.length + (put_digits (d.natAbs + 1) d.natAbs []).length + 1 ≤
      (record_text e u a b c d).length) :
    read_config (some p) = none ∧
    clock_gettime (some p) clk_id real_rc real_tp = (real_rc, real_tp) ∧
    gettimeofday (some p) rc_tod real_tv = (rc_tod, real_tv) ∧
    time (some p) real tloc = (real, tloc.map fun _ => real) := by
  have hsplit : record_text e u a b c d =
      (put_int (if e then 1 else 0) ++ ' ' :: (put_int (if u then 1 else 0) ++ ' ' ::
        (put_int a ++ ' ' :: (put_int b ++ ' ' :: (put_int c ++ ' ' :: put_sign d))))) ++
      (put_digits (d.natAbs + 1) d.natAbs [] ++ ['\n']) := by
    simp [record_text, put_int]
  have hhead : p <+: put_int (if e then 1 else 0) ++ ' ' ::
      (put_int (if u then 1 else 0) ++ ' ' ::
        (put_int a ++ ' ' :: (put_int b ++ ' ' :: (put_int c ++ ' ' :: put_sign d)))) := by
    refine List.prefix_of_prefix_length_le hp (hsplit ▸ List.prefix_append _ _) ?_
    rw [hsplit] at hcut
    simp only [List.length_append, List.length_cons, List.length_nil] at hcut ⊢
    omega
  have hn : read_config (some p) = none :=
    (read_config_eq_none_iff _).mpr
      (Or.inr ⟨p, rfl, by have := scan_ints_cut_record e u a b c d p hhead; omega⟩)
  exact ⟨hn, clock_gettime_of_none _ _ _ _ hn, gettimeofday_of_none _ _ _ hn,
    time_of_none _ _ _ hn⟩

/-- Instance of C10 amended: the record `1 1 0 0 -2 -250000000` cut right
after the minus sign of its sixth field. -/
theorem torn_read_fails_closed_witness :
    "1 1 0 0 -2 -".toList <+: record_text true true 0 0 (-2) (-250000000) ∧
    read_config (some "1 1 0 0 -2 -".toList) = none ∧
    time (some "1 1 0 0 -2 -".toList) 1700000000 (some 0) = (1700000000, some 1700000000) :=
  ⟨by decide,
    (torn_read_fails_closed true true 0 0 (-2) (-250000000) "1 1 0 0 -2 -".toList
      0 0 ⟨0, 0⟩ 0 ⟨0, 0⟩ 1700000000 (some 0) (by decide) (by decide)).1,
    (torn_read_fails_closed true true 0 0 (-2) (-250000000) "1 1 0 0 -2 -".toList
      0 0 ⟨0, 0⟩ 0 ⟨0, 0⟩ 1700000000 (some 0) (by decide) (by decide)).2.2.2⟩

/-! ## Normalisation and agreement of the read paths -/

/-- C17. `norm_ts` is a total function; for every `(s, n)`, with `n` any
integer, it yields `(s + floor(n / 1e9), n mod 1e9)`, the nanoseconds lie
in `[0, 1e9)` and `s * 1e9 + n` is preserved; it is the identity on
normalized input and idempotent. Hence `clock_gettime(CLOCK_REALTIME)`
under an enabled Offset record returns nanoseconds in `[0, 1e9)` for every
`off_nsec`, the negative ones included. -/
theorem norm_ts_normalizes (s n : Int) (file : ConfFile) (fsec fnsec osec onsec rs rn : Int) :
    norm_ts ⟨s, n⟩ = ⟨s + Int.fdiv n 1000000000, Int.fmod n 1000000000⟩ ∧
    0 ≤ (norm_ts ⟨s, n⟩).tv_nsec ∧ (norm_ts ⟨s, n⟩).tv_nsec < 1000000000 ∧
    (norm_ts ⟨s, n⟩).tv_sec * 1000000000 + (norm_ts ⟨s, n⟩).tv_nsec = s * 1000000000 + n ∧
    (0 ≤ n → n < 1000000000 → norm_ts ⟨s, n⟩ = ⟨s, n⟩) ∧
    norm_ts (norm_ts ⟨s, n⟩) = norm_ts ⟨s, n⟩ ∧
    (read_config file = some ⟨true, true, fsec, fnsec, osec, onsec⟩ →
      0 ≤ (clock_gettime file CLOCK_REALTIME 0 ⟨rs, rn⟩).2.tv_nsec ∧
      (clock_gettime file CLOCK_REALTIME 0 ⟨rs, rn⟩).2.tv_nsec < 1000000000) := by
  have hd : Int.fdiv n 1000000000 = n / 1000000000 := Int.fdiv_eq_ediv _ (by decide)
  have hm : Int.fmod n 1000000000 = n % 1000000000 := Int.fmod_eq_emod _ (by decide)
  rw [hd, hm]
  refine ⟨norm_ts_eq _, ?_, ?_, ?_, ?_, ?_, ?_⟩
  · rw [norm_ts_eq]; dsimp only; omega
  · rw [norm_ts_eq]; dsimp only; omega
  · rw [norm_ts_eq]; dsimp only; omega
  · intro h0 h1
    rw [norm_ts_eq]
    simp only [Timespec.mk.injEq]
    omega
  · rw [norm_ts_eq, norm_ts_eq]
    simp only [Timespec.mk.injEq]
    omega
  · intro hcfg
    have h : clock_gettime file CLOCK_REALTIME 0 ⟨rs, rn⟩ =
        (0, ⟨rs + osec + (rn + onsec) / 1000000000, (rn + onsec) % 1000000000⟩) := by
      simp [clock_gettime, hcfg, norm_ts_eq]
    rw [h]
    dsimp only
    omega

/-- Instance of C17: the record written for an offset of -2.25 s, whose
`off_nsec` is negative, on a real reading with 100 ns. -/
theorem norm_ts_normalizes_witness :
    read_config (some "1 1 0 0 -2 -250000000\n".toList) =
        some ⟨true, true, 0, 0, -2, -250000000⟩ ∧
    0 ≤ (clock_gettime (some "1 1 0 0 -2 -250000000\n".toList) CLOCK_REALTIME 0
        ⟨1700000000, 100⟩).2.tv_nsec ∧
    (clock_gettime (some "1 1 0 0 -2 -250000000\n".toList) CLOCK_REALTIME 0
        ⟨1700000000, 100⟩).2.tv_nsec < 1000000000 :=
  ⟨by decide,
    (norm_ts_normalizes 5 (-2500000001) (some "1 1 0 0 -2 -250000000\n".toList) 0 0 (-2)
      (-250000000) 1700000000 100).2.2.2.2.2.2 (by decide)⟩

/-- C18. Under an enabled Fixed record `(fs, fn)` with `fn` in `[0, 1e9)`,
`gettimeofday` returns `(fs, u)` with `u` in `[0, 1e6)` and
`u = floor(fn / 1000)`: the result `(fs, fn)` of
`clock_gettime(CLOCK_REALTIME)` with its nanoseconds cut to microseconds. -/
theorem fixed_paths_agree (file : ConfFile) (fsec fnsec osec onsec : Int)
    (real_tp : Timespec) (real_tv : Timeval)
    (hcfg : read_config file = some ⟨true, false, fsec, fnsec, osec, onsec⟩)
    (h0 : 0 ≤ fnsec) (h1 : fnsec < 1000000000) :
    gettimeofday file 0 real_tv = (0, ⟨fsec, Int.fdiv fnsec 1000⟩) ∧
    0 ≤ (gettimeofday file 0 real_tv).2.tv_usec ∧
    (gettimeofday file 0 real_tv).2.tv_usec < 1000000 ∧
    clock_gettime file CLOCK_REALTIME 0 real_tp = (0, ⟨fsec, fnsec⟩) ∧
    (gettimeofday file 0 real_tv).2.tv_sec =
      (clock_gettime file CLOCK_REALTIME 0 real_tp).2.tv_sec ∧
    (gettimeofday file 0 real_tv).2.tv_usec =
      Int.fdiv (clock_gettime file CLOCK_REALTIME 0 real_tp).2.tv_nsec 1000 := by
  have hg : gettimeofday file 0 real_tv = (0, ⟨fsec, Int.fdiv fnsec 1000⟩) := by
    rw [Int.fdiv_eq_ediv _ (by decide), ← Int.tdiv_eq_ediv h0 (by decide)]
    simp [gettimeofday, hcfg]
  have hc : clock_gettime file CLOCK_REALTIME 0 real_tp = (0, ⟨fsec, fnsec⟩) := by
    simp [clock_gettime, hcfg]
  rw [hg, hc]
  dsimp only
  rw [Int.fdiv_eq_ediv _ (by decide)]
  refine ⟨rfl, ?_, ?_, rfl, rfl, rfl⟩ <;> omega

/-- Instance of C18 on the record `1 0 100 500000000 0 0`. -/
theorem fixed_paths_agree_witness :
    read_config (some "1 0 100 500000000 0 0\n".toList) =
        some ⟨true, false, 100, 500000000, 0, 0⟩ ∧
    gettimeofday (some "1 0 100 500000000 0 0\n".toList) 0 ⟨1700000000, 7⟩ =
      (0, ⟨100, Int.fdiv 500000000 1000⟩) :=
  ⟨by decide,
    (fixed_paths_agree (some "1 0 100 500000000 0 0\n".toList) 100 500000000 0 0
      ⟨1700000000, 7000⟩ ⟨1700000000, 7⟩ (by decide) (by decide) (by decide)).1⟩

/-- C19. Under an enabled Offset record `(os, on)` with `-1e9 < on < 1e9`
and a real reading `(T, rn)` with `rn` in `[0, 1e9)`, the value of `time`
and the seconds of `clock_gettime(CLOCK_REALTIME)` satisfy
`time ≤ tv_sec ≤ time + 1`, with `tv_sec = time + 1` exactly when `on ≥ 0`
and `rn + on ≥ 1e9`, or `on < 0` and `rn + on ≥ 0`. The two differ on the
record `1 1 0 0 0 -1` with the real reading `(5, 1)`. -/
theorem time_within_one_of_clock (file : ConfFile) (fsec fnsec osec onsec T rn : Int)
    (tloc : Option Int)
    (hcfg : read_config file = some ⟨true, true, fsec, fnsec, osec, onsec⟩)
    (hrn0 : 0 ≤ rn) (hrn : rn < 1000000000)
    (hlo : -1000000000 < onsec) (hhi : onsec < 1000000000) :
    (time file T tloc).1 ≤ (clock_gettime file CLOCK_REALTIME 0 ⟨T, rn⟩).2.tv_sec ∧
    (clock_gettime file CLOCK_REALTIME 0 ⟨T, rn⟩).2.tv_sec ≤ (time file T tloc).1 + 1 ∧
    ((clock_gettime file CLOCK_REALTIME 0 ⟨T, rn⟩).2.tv_sec = (time file T tloc).1 + 1 ↔
      (0 ≤ onsec ∧ 1000000000 ≤ rn + onsec) ∨ (onsec < 0 ∧ 0 ≤ rn + onsec)) ∧
    (time (some "1 1 0 0 0 -1\n".toList) 5 none).1 ≠
      (clock_gettime (some "1 1 0 0 0 -1\n".toList) CLOCK_REALTIME 0 ⟨5, 1⟩).2.tv_sec := by
  have hc : clock_gettime file CLOCK_REALTIME 0 ⟨T, rn⟩ =
      (0, ⟨T + osec + (rn + onsec) / 1000000000, (rn + onsec) % 1000000000⟩) := by
    simp [clock_gettime, hcfg, norm_ts_eq]
  have ht : (time file T tloc).1 = T + osec + (if onsec ≥ 0 then 0 else -1) := by
    simp [time, hcfg]
  have hex : read_config (some "1 1 0 0 0 -1\n".toList) = some ⟨true, true, 0, 0, 0, -1⟩ := by
    decide
  have hc2 : clock_gettime (some "1 1 0 0 0 -1\n".toList) CLOCK_REALTIME 0 ⟨5, 1⟩ =
      (0, ⟨5, 0⟩) := by
    simp only [clock_gettime, hex, norm_ts_eq]
    decide
  have ht2 : (time (some "1 1 0 0 0 -1\n".toList) 5 none).1 = 4 := by decide
  rw [hc, ht, hc2, ht2]
  dsimp only
  refine ⟨?_, ?_, ?_, by decide⟩
  · split <;> omega
  · split <;> omega
  · split <;> omega

/-- Instance of C19: after an offset of -2.25 s the two reads differ by
one on a real reading with 500000000 ns. -/
theorem time_within_one_of_clock_witness :
    read_config (some "1 1 0 0 -2 -250000000\n".toList) =
        some ⟨true, true, 0, 0, -2, -250000000⟩ ∧
    (time (some "1 1 0 0 -2 -250000000\n".toList) 1700000000 none).1 ≤
      (clock_gettime (some "1 1 0 0 -2 -250000000\n".toList) CLOCK_REALTIME 0
        ⟨1700000000, 500000000⟩).2.tv_sec :=
  ⟨by decide,
    (time_within_one_of_clock (some "1 1 0 0 -2 -250000000\n".toList) 0 0 (-2) (-250000000)
      1700000000 500000000 none (by decide) (by decide) (by decide) (by decide)
      (by decide)).1⟩

/-! ## Lemmas on reading back a written record -/

theorem digit_char_value (n : Nat) : (Char.ofNat (48 + n % 10)).toNat - 48 = n % 10 := by
  have h : n % 10 < 10 := Nat.mod_lt _ (by decide)
  generalize n % 10 = d at h
  interval_cases d <;> decide

/-- Scanning stops at once on input that does not start with a digit. -/
theorem scan_digits_stop (rest : List Char) (a k : Nat)
    (hr : ∀ c r, rest = c :: r → isdigit c = false) :
    scan_digits a k rest = (a, k, rest) := by
  cases rest with
  | nil => rfl
  | cons c r => simp [scan_digits, hr c r rfl]

/-- Scanning the printed digits of `n` adds `n` below the value accumulated
so far and goes on with what follows. -/
theorem scan_put_digits (fuel n : Nat) (acc : List Char) (hn : n < 10 ^ (fuel + 1)) :
    ∃ d, 0 < d ∧ ∀ (a k : Nat) (tail : List Char),
      scan_digits a k (put_digits (fuel + 1) n acc ++ tail) =
        scan_digits (a * 10 ^ d + n) (k + d) (acc ++ tail) := by
  induction fuel generalizing n acc with
  | zero =>
    refine ⟨1, by decide, ?_⟩
    intro a k tail
    have hn10 : n % 10 = n := Nat.mod_eq_of_lt (by simpa using hn)
    have hp : put_digits 1 n acc = Char.ofNat (48 + n % 10) :: acc := by
      simp only [put_digits]
      split <;> rfl
    rw [hp, List.cons_append, scan_digits, if_pos (isdigit_digit_char n), digit_char_value, hn10,
      Nat.pow_one]
  | succ fuel ih =>
    by_cases h10 : n / 10 = 0
    · refine ⟨1, by decide, ?_⟩
      intro a k tail
      have hn10 : n % 10 = n := Nat.mod_eq_of_lt (by omega)
      have hp : put_digits (fuel + 1 + 1) n acc = Char.ofNat (48 + n % 10) :: acc := by
        rw [put_digits]
        simp [h10]
      rw [hp, List.cons_append, scan_digits, if_pos (isdigit_digit_char n), digit_char_value,
        hn10, Nat.pow_one]
    · have hlt : n / 10 < 10 ^ (fuel + 1) := by
        rw [Nat.div_lt_iff_lt_mul (by decide)]
        rw [Nat.pow_succ] at hn
        exact hn
      obtain ⟨d, hd, hscan⟩ := ih (n / 10) (Char.ofNat (48 + n % 10) :: acc) hlt
      refine ⟨d + 1, by omega, ?_⟩
      intro a k tail
      have hp : put_digits (fuel + 1 + 1) n acc =
          put_digits (fuel + 1) (n / 10) (Char.ofNat (48 + n % 10) :: acc) := by
        rw [put_digits]
        simp [h10]
      rw [hp, hscan, List.cons_append, scan_digits, if_pos (isdigit_digit_char n),
        digit_char_value]
      have e1 : (a * 10 ^ d + n / 10) * 10 + n % 10 = a * 10 ^ (d + 1) + n := by
        have := Nat.div_add_mod n 10
        rw [Nat.pow_succ]
        nlinarith
      rw [e1, Nat.add_assoc]

/-- Reading back a printed integer: the conversion yields the value that
was printed and stops right after its last digit. -/
theorem scan_int_put_int_value (v : Int) (rest : List Char)
    (hr : ∀ c r, rest = c :: r → isdigit c = false) :
    scan_int (put_int v ++ rest) = some (v, rest) := by
  obtain ⟨ds, hne, hd, he⟩ := put_digits_run v.natAbs v.natAbs []
  obtain ⟨d, hdpos, hscan⟩ := scan_put_digits v.natAbs v.natAbs []
    (Nat.lt_of_lt_of_le (Nat.lt_pow_self (by decide) _) (Nat.pow_le_pow_right (by decide) (by omega)))
  have hval : scan_digits 0 0 (put_digits (v.natAbs + 1) v.natAbs [] ++ rest) =
      (v.natAbs, d, rest) := by
    rw [hscan 0 0 rest, List.nil_append, scan_digits_stop _ _ _ hr]
    simp
  obtain ⟨d1, hd1⟩ : ∃ d1, d = d1 + 1 := ⟨d - 1, by omega⟩
  rw [hd1] at hval
  cases ds with
  | nil => exact absurd rfl hne
  | cons d0 t =>
    have hd0 : isdigit d0 = true := hd d0 (List.mem_cons_self _ _)
    rw [List.append_nil] at he
    rw [put_int, put_sign]
    split
    · rename_i hneg
      have hsk : skip_space (['-'] ++ put_digits (v.natAbs + 1) v.natAbs [] ++ rest) =
          '-' :: (put_digits (v.natAbs + 1) v.natAbs [] ++ rest) := by
        rw [List.append_assoc, List.singleton_append, skip_space, if_neg (by decide)]
      have hv : -((v.natAbs : Nat) : Int) = v := by omega
      simp only [scan_int, hsk, if_true, hval, hv]
    · rename_i hneg
      have hsk : skip_space ([] ++ put_digits (v.natAbs + 1) v.natAbs [] ++ rest) =
          d0 :: (t ++ rest) := by
        rw [List.nil_append, he, List.cons_append, skip_space,
          if_neg (by simp [not_isspace_of_isdigit d0 hd0])]
      have hval2 : scan_digits 0 0 (d0 :: (t ++ rest)) = (v.natAbs, d1 + 1, rest) := by
        rw [← List.cons_append, ← he]
        exact hval
      have hv : ((v.natAbs : Nat) : Int) = v := by omega
      simp only [scan_int, hsk, if_neg (ne_minus_of_isdigit d0 hd0),
        if_neg (ne_plus_of_isdigit d0 hd0), hval2, hv]

/-- One field of a record: the printed integer is read back and the scan
goes on after it. -/
theorem scan_ints_put_int (k : Nat) (v : Int) (rest : List Char)
    (hr : ∀ c r, rest = c :: r → isdigit c = false) :
    scan_ints (k + 1) (put_int v ++ rest) = v :: scan_ints k rest := by
  rw [scan_ints, scan_int_put_int_value v rest hr]

theorem not_isdigit_head_space (q : List Char) :
    ∀ c r, ' ' :: q = c :: r → isdigit c = false := by
  intro c r h
  rw [List.cons.injEq] at h
  rw [← h.1]
  decide

theorem not_isdigit_head_newline :
    ∀ c r, ['\n'] = c :: r → isdigit c = false := by
  intro c r h
  rw [List.cons.injEq] at h
  rw [← h.1]
  decide

/-- The items `fscanf` assigns from a record are the six values printed, and
a seventh conversion would fail. -/
theorem scan_ints_record (e u : Bool) (a b c d : Int) :
    scan_ints 6 (record_text e u a b c d) =
        [if e then 1 else 0, if u then 1 else 0, a, b, c, d] ∧
    scan_ints 7 (record_text e u a b c d) =
        [if e then 1 else 0, if u then 1 else 0, a, b, c, d] := by
  have h7 : scan_ints 1 ['\n'] = [] := by decide
  have f (k : Nat) (v : Int) (q : List Char) :
      scan_ints (k + 1) (put_int v ++ ' ' :: q) = v :: scan_ints k q := by
    rw [scan_ints_put_int k v _ (not_isdigit_head_space q), scan_ints_space]
  have g (k : Nat) (v : Int) :
      scan_ints (k + 1) (put_int v ++ ['\n']) = v :: scan_ints k ['\n'] :=
    scan_ints_put_int k v _ not_isdigit_head_newline
  constructor
  · rw [record_text, f 5, f 4, f 3, f 2, f 1, g 0]
    rfl
  · rw [record_text, f 6, f 5, f 4, f 3, f 2, g 1, h7]

/-- Reading a written record gives back the six fields. -/
theorem read_config_record (e u : Bool) (a b c d : Int) :
    read_config (some (record_text e u a b c d)) = some ⟨e, u, a, b, c, d⟩ := by
  simp only [read_config, (scan_ints_record e u a b c d).1]
  cases e <;> cases u <;> rfl

/-! ## Lemmas on the status text -/

/-- A number below `10 ^ (k + 1)` is printed with at most `k + 1` digits. -/
theorem put_digits_length (fuel n k : Nat) (acc : List Char) (hn : n < 10 ^ (k + 1)) :
    (put_digits (fuel + 1) n acc).length ≤ acc.length + (k + 1) := by
  induction fuel generalizing n k acc with
  | zero =>
    have hp : put_digits 1 n acc = Char.ofNat (48 + n % 10) :: acc := by
      simp only [put_digits]
      split <;> rfl
    rw [hp, List.length_cons]
    omega
  | succ fuel ih =>
    by_cases h10 : n / 10 = 0
    · have hp : put_digits (fuel + 1 + 1) n acc = Char.ofNat (48 + n % 10) :: acc := by
        rw [put_digits]
        simp [h10]
      rw [hp, List.length_cons]
      omega
    · have hp : put_digits (fuel + 1 + 1) n acc =
          put_digits (fuel + 1) (n / 10) (Char.ofNat (48 + n % 10) :: acc) := by
        rw [put_digits]
        simp [h10]
      cases k with
      | zero =>
        exfalso
        apply h10
        exact Nat.div_eq_of_lt (by simpa using hn)
      | succ k =>
        have hlt : n / 10 < 10 ^ (k + 1) := by
          rw [Nat.div_lt_iff_lt_mul (by decide)]
          rw [Nat.pow_succ] at hn
          exact hn
        have := ih (n / 10) k (Char.ofNat (48 + n % 10) :: acc) hlt
        rw [hp]
        rw [List.length_cons] at this
        omega

/-- A value of a 64-bit integer type is printed with at most 20
characters. -/
theorem put_int_length (v : Int) (h : in_long v = true) : (put_int v).length ≤ 20 := by
  simp only [in_long, Bool.and_eq_true, decide_eq_true_eq] at h
  have hn : v.natAbs < 10 ^ (18 + 1) := by
    norm_num
    omega
  have hl := put_digits_length v.natAbs v.natAbs 18 [] hn
  rw [put_int, List.length_append, put_sign]
  rw [List.length_nil] at hl
  split
  · rw [List.length_singleton]; omega
  · rw [List.length_nil]; omega

theorem snprintf_buf_fits (text : List Char) (h : text.length ≤ 255) :
    snprintf_buf text = text :=
  List.take_of_length_le h

theorem snprintf_buf_length (text : List Char) : (snprintf_buf text).length ≤ 255 := by
  rw [snprintf_buf, List.length_take]
  exact Nat.min_le_left _ _

/-- A report that starts with `mock: e` is not the text `mock: disabled`. -/
theorem enabled_report_ne_disabled (tail : List Char) :
    snprintf_buf ('m' :: 'o' :: 'c' :: 'k' :: ':' :: ' ' :: 'e' :: tail) ≠
      "mock: disabled".toList := by
  intro h
  have h7 := congrArg (List.take 7) h
  rw [snprintf_buf, List.take_take] at h7
  simp only [List.take, Nat.min_def] at h7
  revert h7
  decide

theorem status_of_none : pg_mock_time_status none = "mock: disabled".toList := by decide

theorem status_of_short (cs : List Char) (h : (scan_ints 6 cs).length ≠ 6) :
    pg_mock_time_status (some cs) = "mock: disabled".toList := by
  simp only [pg_mock_time_status]
  split
  · rename_i heq
    rw [heq] at h
    exact absurd rfl h
  · decide

theorem status_of_zero (cs : List Char) (u a b c d : Int)
    (h : scan_ints 6 cs = [0, u, a, b, c, d]) :
    pg_mock_time_status (some cs) = "mock: disabled".toList := by
  simp only [pg_mock_time_status, h, if_true]
  decide

theorem status_of_offset (cs : List Char) (e u a b c d : Int)
    (h : scan_ints 6 cs = [e, u, a, b, c, d]) (he : e ≠ 0) (hu : u ≠ 0) :
    pg_mock_time_status (some cs) =
      snprintf_buf ("mock: enabled (offset) ".toList ++ put_int c ++ " s, ".toList ++
        put_int d ++ " ns".toList) := by
  simp only [pg_mock_time_status, h, if_neg he, hu, ne_eq, not_false_eq_true, if_true]

theorem status_of_fixed (cs : List Char) (e a b c d : Int)
    (h : scan_ints 6 cs = [e, 0, a, b, c, d]) (he : e ≠ 0) :
    pg_mock_time_status (some cs) =
      snprintf_buf ("mock: enabled (fixed) ".toList ++ put_int a ++ " s, ".toList ++
        put_int b ++ " ns (UNIX epoch)".toList) := by
  simp only [pg_mock_time_status, h, if_neg he, ne_eq, not_true_eq_false, if_false]

/-- With fields of 64-bit types the offset report fits the buffer. -/
theorem offset_report_fits (c d : Int) (hc : in_long c = true) (hd : in_long d = true) :
    snprintf_buf ("mock: enabled (offset) ".toList ++ put_int c ++ " s, ".toList ++
        put_int d ++ " ns".toList) =
      "mock: enabled (offset) ".toList ++ put_int c ++ " s, ".toList ++
        put_int d ++ " ns".toList := by
  apply snprintf_buf_fits
  have h1 := put_int_length c hc
  have h2 := put_int_length d hd
  have l1 : "mock: enabled (offset) ".toList.length = 23 := by decide
  have l2 : " s, ".toList.length = 4 := by decide
  have l3 : " ns".toList.length = 3 := by decide
  simp only [List.length_append, l1, l2, l3]
  omega

/-- With fields of 64-bit types the fixed report fits the buffer. -/
theorem fixed_report_fits (a b : Int) (ha : in_long a = true) (hb : in_long b = true) :
    snprintf_buf ("mock: enabled (fixed) ".toList ++ put_int a ++ " s, ".toList ++
        put_int b ++ " ns (UNIX epoch)".toList) =
      "mock: enabled (fixed) ".toList ++ put_int a ++ " s, ".toList ++
        put_int b ++ " ns (UNIX epoch)".toList := by
  apply snprintf_buf_fits
  have h1 := put_int_length a ha
  have h2 := put_int_length b hb
  have l1 : "mock: enabled (fixed) ".toList.length = 22 := by decide
  have l2 : " s, ".toList.length = 4 := by decide
  have l3 : " ns (UNIX epoch)".toList.length = 16 := by decide
  simp only [List.length_append, l1, l2, l3]
  omega

/-- The text `mock: disabled` is returned only for a missing file, fewer
than six items, or a first item `0`. -/
theorem status_disabled_only (file : ConfFile)
    (h : pg_mock_time_status file = "mock: disabled".toList) :
    file = none ∨ ∃ cs, file = some cs ∧
      ((scan_ints 6 cs).length ≠ 6 ∨ ∃ u a b c d, scan_ints 6 cs = [0, u, a, b, c, d]) := by
  cases file with
  | none => exact Or.inl rfl
  | some cs =>
    right
    refine ⟨cs, rfl, ?_⟩
    by_cases hl : (scan_ints 6 cs).length = 6
    · right
      match hs : scan_ints 6 cs, hl with
      | [e, u, a, b, c, d], _ =>
        by_cases he : e = 0
        · exact ⟨u, a, b, c, d, by rw [he]⟩
        · exfalso
          by_cases hu : u = 0
          · rw [hu] at hs
            rw [status_of_fixed cs e a b c d hs he] at h
            exact enabled_report_ne_disabled _ h
          · rw [status_of_offset cs e u a b c d hs he hu] at h
            exact enabled_report_ne_disabled _ h
    · exact Or.inl hl

/-! ## The record codec and the status report -/

/-- C16. `write_config` (when it writes) emits the six values as decimal
fields in the order enabled, use_offset, fixed_sec, fixed_nsec, off_sec,
off_nsec, separated by one space and followed by one newline; each field is
an optional minus sign and a non-empty run of digits; `fscanf` assigns
exactly these six values from that text (a seventh conversion fails), and
`read_config` succeeds with all six fields equal to the values written. -/
theorem write_then_read (old : ConfFile) (e u : Bool) (a b c d : Int) :
    write_config true old e u a b c d =
      some (put_int (if e then 1 else 0) ++ [' '] ++ put_int (if u then 1 else 0) ++ [' '] ++
        put_int a ++ [' '] ++ put_int b ++ [' '] ++ put_int c ++ [' '] ++ put_int d ++
        ['\n']) ∧
    (∀ v : Int, ∃ ds, ds ≠ [] ∧ (∀ ch ∈ ds, isdigit ch = true) ∧
      put_int v = (if v < 0 then ['-'] else []) ++ ds) ∧
    scan_ints 6 (record_text e u a b c d) =
      [if e then 1 else 0, if u then 1 else 0, a, b, c, d] ∧
    (scan_ints 7 (record_text e u a b c d)).length = 6 ∧
    read_config (write_config true old e u a b c d) = some ⟨e, u, a, b, c, d⟩ := by
  refine ⟨?_, ?_, (scan_ints_record e u a b c d).1, ?_, ?_⟩
  · simp [write_config, record_text]
  · intro v
    obtain ⟨ds, h1, h2, h3⟩ := put_int_shape v
    exact ⟨ds, h1, h2, by rw [h3, put_sign]⟩
  · rw [(scan_ints_record e u a b c d).2]
    rfl
  · simp only [write_config, if_true]
    exact read_config_record e u a b c d

/-- C15. `pg_mock_time_status` is a total function whose text fits its
buffer. It returns `mock: disabled` exactly when the file is missing, fewer
than six items are assigned, or the first item is `0`. Otherwise, with
fields of the 64-bit types, it returns the offset report carrying
`(off_sec, off_nsec)` when the second item is non-zero and the fixed report
carrying `(fixed_sec, fixed_nsec)` when it is `0`; the other pair does not
appear in the text. -/
theorem status_report (file : ConfFile) :
    (pg_mock_time_status file).length ≤ 255 ∧
    (pg_mock_time_status file = "mock: disabled".toList ↔
      file = none ∨ ∃ cs, file = some cs ∧
        ((scan_ints 6 cs).length ≠ 6 ∨ ∃ u a b c d, scan_ints 6 cs = [0, u, a, b, c, d])) ∧
    (∀ cs e u a b c d, file = some cs → scan_ints 6 cs = [e, u, a, b, c, d] → e ≠ 0 →
      (u ≠ 0 → in_long c = true → in_long d = true →
        pg_mock_time_status file =
          "mock: enabled (offset) ".toList ++ put_int c ++ " s, ".toList ++ put_int d ++
            " ns".toList) ∧
      (u = 0 → in_long a = true → in_long b = true →
        pg_mock_time_status file =
          "mock: enabled (fixed) ".toList ++ put_int a ++ " s, ".toList ++ put_int b ++
            " ns (UNIX epoch)".toList)) := by
  refine ⟨?_, ⟨status_disabled_only file, ?_⟩, ?_⟩
  · cases file with
    | none => decide
    | some cs =>
      simp only [pg_mock_time_status]
      split
      · split
        · exact snprintf_buf_length _
        · split <;> exact snprintf_buf_length _
      · exact snprintf_buf_length _
  · rintro (h | ⟨cs, h, hl | ⟨u, a, b, c, d, hz⟩⟩)
    · rw [h]
      exact status_of_none
    · rw [h]
      exact status_of_short cs hl
    · rw [h]
      exact status_of_zero cs u a b c d hz
  · intro cs e u a b c d hf hs he
    subst hf
    constructor
    · intro hu hc hd
      rw [status_of_offset cs e u a b c d hs he hu, offset_report_fits c d hc hd]
    · intro hu ha hb
      subst hu
      rw [status_of_fixed cs e a b c d hs he, fixed_report_fits a b ha hb]

/-- Instance of C15: the record written for an offset of -2.25 s. -/
theorem status_report_witness :
    scan_ints 6 "1 1 0 0 -2 -250000000\n".toList = [1, 1, 0, 0, -2, -250000000] ∧
    pg_mock_time_status (some "1 1 0 0 -2 -250000000\n".toList) =
      "mock: enabled (offset) ".toList ++ put_int (-2) ++ " s, ".toList ++
        put_int (-250000000) ++ " ns".toList :=
  ⟨by decide,
    ((status_report (some "1 1 0 0 -2 -250000000\n".toList)).2.2
      "1 1 0 0 -2 -250000000\n".toList 1 1 0 0 (-2) (-250000000) rfl (by decide)
      (by decide)).1 (by decide) (by decide) (by decide)⟩

/-! ## Lemmas on binary64 rounding -/

theorem round_half_even_intCast (n : Int) : round_half_even (n : ℚ) = n := by
  simp [round_half_even]

theorem floor_le_round_half_even (q : ℚ) : ⌊q⌋ ≤ round_half_even q := by
  unfold round_half_even
  split_ifs <;> omega

theorem round_half_even_le_floor_add_one (q : ℚ) : round_half_even q ≤ ⌊q⌋ + 1 := by
  unfold round_half_even
  split_ifs <;> omega

theorem round_half_even_mono (q r : ℚ) (h : q ≤ r) : round_half_even q ≤ round_half_even r := by
  have hf : ⌊q⌋ ≤ ⌊r⌋ := Int.floor_mono h
  rcases lt_or_eq_of_le hf with hlt | heq
  · have h1 := round_half_even_le_floor_add_one q
    have h2 := floor_le_round_half_even r
    omega
  · unfold round_half_even
    rw [heq]
    have hfr : q - (⌊r⌋ : ℚ) ≤ r - (⌊r⌋ : ℚ) := by linarith
    split_ifs <;> first | omega | (exfalso; linarith)

theorem round_half_even_nonneg (q : ℚ) (h : 0 ≤ q) : 0 ≤ round_half_even q :=
  le_trans (Int.floor_nonneg.mpr h) (floor_le_round_half_even q)

theorem round_pos_zero : round_pos 0 = 0 := by
  simp [round_pos, round_half_even]

theorem two_zpow_pos (t : Int) : (0 : ℚ) < 2 ^ t := zpow_pos (by norm_num) t

theorem log_lt_of_lt_zpow (q : ℚ) (hq : 0 < q) (x : Int) (h : q < 2 ^ x) : Int.log 2 q < x :=
  (Int.lt_zpow_iff_log_lt (by norm_num) hq).mp (by simpa using h)

theorem le_log_of_zpow_le (q : ℚ) (hq : 0 < q) (x : Int) (h : 2 ^ x ≤ q) : x ≤ Int.log 2 q :=
  (Int.zpow_le_iff_le_log (by norm_num) hq).mp (by simpa using h)

theorem zpow_log_le (q : ℚ) (hq : 0 < q) : (2 : ℚ) ^ Int.log 2 q ≤ q := by
  simpa using Int.zpow_log_le_self (b := 2) (by norm_num) hq

theorem lt_zpow_log_succ (q : ℚ) : q < (2 : ℚ) ^ (Int.log 2 q + 1) := by
  simpa using Int.lt_zpow_succ_log_self (b := 2) (by norm_num) q

theorem ulp_exp_mono (q r : ℚ) (hq : 0 < q) (h : q ≤ r) : ulp_exp q ≤ ulp_exp r := by
  unfold ulp_exp
  have := Int.log_mono_right (b := 2) hq h
  omega

/-- Rounding leaves alone a value `m * 2 ^ e` with `m < 2 ^ 53` and `e` not
below the smallest exponent. -/
theorem round_pos_exact (m : Nat) (e : Int) (hm : m < 2 ^ 53) (he : -1074 ≤ e) :
    round_pos ((m : ℚ) * 2 ^ e) = (m : ℚ) * 2 ^ e := by
  rcases Nat.eq_zero_or_pos m with h0 | hpos
  · rw [h0]
    simp [round_pos_zero]
  · have hq : (0 : ℚ) < (m : ℚ) * 2 ^ e :=
      mul_pos (by exact_mod_cast hpos) (two_zpow_pos e)
    have hlt : (m : ℚ) * 2 ^ e < 2 ^ (e + 53) := by
      rw [zpow_add₀ (by norm_num), mul_comm]
      have hm' : (m : ℚ) < 2 ^ (53 : Int) := by
        have h2 : (2 : ℚ) ^ (53 : Int) = ((2 ^ 53 : Nat) : ℚ) := by norm_num
        rw [h2]
        exact_mod_cast hm
      exact mul_lt_mul_of_pos_left hm' (two_zpow_pos e)
    have hlog := log_lt_of_lt_zpow _ hq _ hlt
    have ht : ulp_exp ((m : ℚ) * 2 ^ e) ≤ e := by
      unfold ulp_exp
      omega
    have key : ∀ t : Int, t ≤ e →
        (round_half_even ((m : ℚ) * 2 ^ e / 2 ^ t) : ℚ) * 2 ^ t = (m : ℚ) * 2 ^ e := by
      intro t hte
      obtain ⟨k, hk⟩ : ∃ k : Nat, e = t + k := ⟨(e - t).toNat, by omega⟩
      have hdiv : (m : ℚ) * 2 ^ e / 2 ^ t = (((m * 2 ^ k : Nat) : Int) : ℚ) := by
        rw [hk, zpow_add₀ (by norm_num), zpow_natCast]
        field_simp
        ring
      rw [hdiv, round_half_even_intCast, hk, zpow_add₀ (by norm_num), zpow_natCast]
      push_cast
      ring
    exact key _ ht

theorem round_pos_nonneg (q : ℚ) (hq : 0 ≤ q) : 0 ≤ round_pos q := by
  unfold round_pos
  have h1 : (0 : ℚ) ≤ q / 2 ^ ulp_exp q := div_nonneg hq (le_of_lt (two_zpow_pos _))
  have h2 := round_half_even_nonneg _ h1
  exact mul_nonneg (by exact_mod_cast h2) (le_of_lt (two_zpow_pos _))

theorem round_half_even_half : round_half_even (1 / 2) = 0 := by
  have hf : ⌊(1 / 2 : ℚ)⌋ = 0 := by
    rw [Int.floor_eq_iff]
    norm_num
  unfold round_half_even
  rw [hf]
  norm_num

/-- A positive value is not rounded above the next power of two. -/
theorem round_pos_le_zpow (q : ℚ) (hq : 0 < q) :
    round_pos q ≤ 2 ^ (Int.log 2 q + 1) := by
  have hlt := lt_zpow_log_succ q
  have htp := two_zpow_pos (ulp_exp q)
  by_cases hc : ulp_exp q ≤ Int.log 2 q + 1
  · obtain ⟨k, hk⟩ : ∃ k : Nat, Int.log 2 q + 1 = ulp_exp q + k :=
      ⟨(Int.log 2 q + 1 - ulp_exp q).toNat, by omega⟩
    have hdiv : q / 2 ^ ulp_exp q ≤ (((2 ^ k : Nat) : Int) : ℚ) := by
      rw [div_le_iff₀ htp]
      push_cast
      rw [hk, zpow_add₀ (by norm_num), zpow_natCast, mul_comm] at hlt
      exact le_of_lt hlt
    have hr := round_half_even_mono _ _ hdiv
    rw [round_half_even_intCast] at hr
    unfold round_pos
    rw [hk, zpow_add₀ (by norm_num), zpow_natCast, mul_comm ((2 : ℚ) ^ ulp_exp q)]
    have hr' : (round_half_even (q / 2 ^ ulp_exp q) : ℚ) ≤ (2 : ℚ) ^ k := by
      have : (round_half_even (q / 2 ^ ulp_exp q) : ℚ) ≤ (((2 ^ k : Nat) : Int) : ℚ) := by
        exact_mod_cast hr
      simpa using this
    exact mul_le_mul_of_nonneg_right hr' (le_of_lt htp)
  · have hlt2 : q / 2 ^ ulp_exp q ≤ 1 / 2 := by
      rw [div_le_iff₀ htp]
      have h1 : (2 : ℚ) ^ (Int.log 2 q + 1) ≤ 2 ^ (ulp_exp q - 1) :=
        zpow_le_zpow_right₀ (by norm_num) (by omega)
      have h2 : (2 : ℚ) ^ (ulp_exp q - 1) = 1 / 2 * 2 ^ ulp_exp q := by
        rw [zpow_sub₀ (by norm_num), zpow_one]
        ring
      linarith
    have hr := round_half_even_mono _ _ hlt2
    rw [round_half_even_half] at hr
    have h0 := round_half_even_nonneg (q / 2 ^ ulp_exp q)
      (div_nonneg (le_of_lt hq) (le_of_lt htp))
    have hz : round_half_even (q / 2 ^ ulp_exp q) = 0 := by omega
    unfold round_pos
    rw [hz]
    simp only [Int.cast_zero, zero_mul]
    exact le_of_lt (two_zpow_pos _)

/-- A positive value in the normal range is not rounded below the power of
two under it. -/
theorem zpow_le_round_pos (r : ℚ) (hr : 0 < r) (hn : ulp_exp r = Int.log 2 r - 52) :
    2 ^ Int.log 2 r ≤ round_pos r := by
  have hle := zpow_log_le r hr
  have htp := two_zpow_pos (ulp_exp r)
  have hL : Int.log 2 r = ulp_exp r + 52 := by omega
  have hdiv : (((2 ^ 52 : Nat) : Int) : ℚ) ≤ r / 2 ^ ulp_exp r := by
    rw [le_div_iff₀ htp]
    rw [hL, zpow_add₀ (by norm_num), mul_comm] at hle
    have e : (((2 ^ 52 : Nat) : Int) : ℚ) = (2 : ℚ) ^ (52 : Int) := by norm_num
    rw [e]
    exact hle
  have hr2 := round_half_even_mono _ _ hdiv
  rw [round_half_even_intCast] at hr2
  unfold round_pos
  have hr3 : (2 : ℚ) ^ (52 : Int) ≤ (round_half_even (r / 2 ^ ulp_exp r) : ℚ) := by
    have : (((2 ^ 52 : Nat) : Int) : ℚ) ≤ (round_half_even (r / 2 ^ ulp_exp r) : ℚ) := by
      exact_mod_cast hr2
    have e : (((2 ^ 52 : Nat) : Int) : ℚ) = (2 : ℚ) ^ (52 : Int) := by norm_num
    rw [e] at this
    exact this
  calc (2 : ℚ) ^ Int.log 2 r = 2 ^ (52 : Int) * 2 ^ ulp_exp r := by
        rw [hL, zpow_add₀ (by norm_num), mul_comm]
    _ ≤ (round_half_even (r / 2 ^ ulp_exp r) : ℚ) * 2 ^ ulp_exp r :=
        mul_le_mul_of_nonneg_right hr3 (le_of_lt htp)

/-- Rounding of non-negative values is monotone. -/
theorem round_pos_mono (q r : ℚ) (hq : 0 ≤ q) (h : q ≤ r) : round_pos q ≤ round_pos r := by
  rcases eq_or_lt_of_le hq with h0 | hpos
  · rw [← h0, round_pos_zero]
    exact round_pos_nonneg r (le_trans hq h)
  · have hr : 0 < r := lt_of_lt_of_le hpos h
    have ht := ulp_exp_mono q r hpos h
    rcases eq_or_lt_of_le ht with heq | hlt
    · unfold round_pos
      rw [heq]
      have htp := two_zpow_pos (ulp_exp r)
      have hdiv : q / 2 ^ ulp_exp r ≤ r / 2 ^ ulp_exp r :=
        div_le_div_of_nonneg_right h (le_of_lt htp)
      have := round_half_even_mono _ _ hdiv
      exact mul_le_mul_of_nonneg_right (by exact_mod_cast this) (le_of_lt htp)
    · have hn : ulp_exp r = Int.log 2 r - 52 := by
        unfold ulp_exp at hlt ⊢
        omega
      have hL : Int.log 2 q + 1 ≤ Int.log 2 r := by
        unfold ulp_exp at hlt
        omega
      calc round_pos q ≤ 2 ^ (Int.log 2 q + 1) := round_pos_le_zpow q hpos
        _ ≤ 2 ^ Int.log 2 r := zpow_le_zpow_right₀ (by norm_num) hL
        _ ≤ round_pos r := zpow_le_round_pos r hr hn

theorem round_double_of_nonneg (q : ℚ) (h : 0 ≤ q) : round_double q = round_pos q := by
  rw [round_double, if_neg (not_lt.mpr h)]

theorem round_double_neg (q : ℚ) : round_double (-q) = -round_double q := by
  rcases lt_trichotomy q 0 with h | h | h
  · rw [round_double, if_neg (by linarith), round_double, if_pos h, neg_neg]
  · rw [h]
    simp [round_double, round_pos_zero]
  · rw [round_double, if_pos (by linarith), neg_neg, round_double, if_neg (by linarith)]

/-- Rounding to binary64 is monotone. -/
theorem round_double_mono (q r : ℚ) (h : q ≤ r) : round_double q ≤ round_double r := by
  by_cases hq : q < 0
  · by_cases hr : r < 0
    · rw [round_double, if_pos hq, round_double, if_pos hr]
      have := round_pos_mono (-r) (-q) (by linarith) (by linarith)
      linarith
    · rw [round_double, if_pos hq, round_double, if_neg hr]
      have h1 := round_pos_nonneg (-q) (by linarith)
      have h2 := round_pos_nonneg r (by linarith)
      linarith
  · rw [round_double, if_neg hq, round_double, if_neg (by linarith)]
    exact round_pos_mono q r (by linarith) h

/-- A value `m * 2 ^ e` with `|m| < 2 ^ 53` and `e ≥ -1074` is a binary64
value: rounding leaves it alone. -/
theorem round_double_exact (m e : Int) (hm : |m| < 2 ^ 53) (he : -1074 ≤ e) :
    round_double ((m : ℚ) * 2 ^ e) = (m : ℚ) * 2 ^ e := by
  have hnat : m.natAbs < 2 ^ 53 := by
    have : (m.natAbs : Int) < 2 ^ 53 := by rw [Int.natCast_natAbs]; exact hm
    exact_mod_cast this
  have hp := round_pos_exact m.natAbs e hnat he
  by_cases h0 : 0 ≤ m
  · have hm' : ((m.natAbs : Nat) : ℚ) = (m : ℚ) := by
      rw [Nat.cast_natAbs, abs_of_nonneg h0]
    rw [hm'] at hp
    rw [round_double_of_nonneg _ (mul_nonneg (by exact_mod_cast h0) (le_of_lt (two_zpow_pos e)))]
    exact hp
  · have hm' : ((m.natAbs : Nat) : ℚ) = -(m : ℚ) := by
      rw [Nat.cast_natAbs, abs_of_neg (not_le.mp h0), Int.cast_neg]
    rw [hm'] at hp
    have e1 : (m : ℚ) * 2 ^ e = -(-(m : ℚ) * 2 ^ e) := by ring
    rw [e1, round_double_neg, round_double_of_nonneg _
      (mul_nonneg (by have : (m : ℚ) < 0 := by exact_mod_cast (not_le.mp h0)
                      linarith) (le_of_lt (two_zpow_pos e))), hp]

theorem round_double_intCast (n : Int) (hn : |n| < 2 ^ 53) :
    round_double (n : ℚ) = (n : ℚ) := by
  have := round_double_exact n 0 hn (by decide)
  simpa using this

theorem round_half_even_of_lt (q : ℚ) (n : Int) (h1 : (n : ℚ) ≤ q) (h2 : q < n + 1 / 2) :
    round_half_even q = n := by
  have hf : ⌊q⌋ = n := by
    rw [Int.floor_eq_iff]
    constructor
    · exact h1
    · linarith
  unfold round_half_even
  rw [hf, if_pos (by linarith)]

theorem round_half_even_of_gt (q : ℚ) (n : Int) (h1 : (n : ℚ) + 1 / 2 < q) (h2 : q < n + 1) :
    round_half_even q = n + 1 := by
  have hf : ⌊q⌋ = n := by
    rw [Int.floor_eq_iff]
    constructor
    · linarith
    · exact h2
  unfold round_half_even
  rw [hf, if_neg (by linarith), if_pos (by linarith)]

theorem ulp_exp_eq (q : ℚ) (L : Int) (h1 : 2 ^ L ≤ q) (h2 : q < 2 ^ (L + 1))
    (hL : -1022 ≤ L) : ulp_exp q = L - 52 := by
  have hq : 0 < q := lt_of_lt_of_le (two_zpow_pos L) h1
  have a := le_log_of_zpow_le q hq L h1
  have b := log_lt_of_lt_zpow q hq (L + 1) h2
  unfold ulp_exp
  omega

/-! ## Lemmas on the split of a `double` into seconds and nanoseconds -/

theorem to_long_of_nonneg (q : ℚ) (h : 0 ≤ q) : to_long q = ⌊q⌋ := by
  rw [to_long, if_pos h]

theorem to_long_neg (q : ℚ) : to_long (-q) = -to_long q := by
  rcases lt_trichotomy q 0 with h | h | h
  · rw [to_long, if_pos (by linarith), to_long, if_neg (by linarith), Int.floor_neg]
  · rw [h]
    simp [to_long]
  · rw [to_long, if_neg (by linarith), to_long, if_pos (by linarith), Int.ceil_neg]

theorem to_long_intCast (n : Int) : to_long (n : ℚ) = n := by
  unfold to_long
  split <;> simp

/-- Truncation of a value between 0 and an integer bound. -/
theorem to_long_bounds (q : ℚ) (c : Int) (h0 : 0 ≤ q) (h1 : q ≤ c) :
    0 ≤ to_long q ∧ to_long q ≤ c := by
  rw [to_long_of_nonneg q h0]
  constructor
  · exact Int.floor_nonneg.mpr h0
  · have := Int.floor_mono h1
    rwa [Int.floor_intCast] at this

theorem to_long_lt (q : ℚ) (c : Int) (h0 : 0 ≤ q) (h1 : q < c) : to_long q < c := by
  rw [to_long_of_nonneg q h0]
  exact Int.floor_lt.mpr h1

/-- The product of the largest binary64 value below 1 with `1e9` is rounded
to the largest binary64 value below `1e9`. -/
theorem round_double_top :
    round_double ((1 - 2 ^ (-53 : Int)) * 1000000000) = 1000000000 - 2 ^ (-23 : Int) := by
  have hu : ulp_exp ((1 - 2 ^ (-53 : Int)) * 1000000000) = -23 := by
    rw [ulp_exp_eq _ 29 (by norm_num) (by norm_num) (by decide)]
    rfl
  rw [round_double_of_nonneg _ (by norm_num), round_pos, hu,
    round_half_even_of_lt _ 8388607999999999 (by norm_num) (by norm_num)]
  norm_num

theorem round_double_zero : round_double 0 = 0 := by
  rw [round_double_of_nonneg 0 le_rfl, round_pos_zero]

theorem round_double_one : round_double 1 = 1 := by
  simpa using round_double_intCast 1 (by decide)

theorem round_double_billion : round_double 1000000000 = 1000000000 := by
  simpa using round_double_intCast 1000000000 (by decide)

/-- Nanoseconds computed from a fraction that is at most the largest
binary64 value below 1. -/
theorem nsec_of_frac_lt_one (y : ℚ) (h0 : 0 ≤ y) (h1 : y ≤ 1 - 2 ^ (-53 : Int)) :
    0 ≤ to_long (round_double (y * 1000000000)) ∧
    to_long (round_double (y * 1000000000)) ≤ 999999999 := by
  have hlo : 0 ≤ round_double (y * 1000000000) := by
    have := round_double_mono 0 (y * 1000000000) (by positivity)
    rwa [round_double_zero] at this
  have hhi : round_double (y * 1000000000) ≤ 1000000000 - 2 ^ (-23 : Int) := by
    have := round_double_mono (y * 1000000000) ((1 - 2 ^ (-53 : Int)) * 1000000000)
      (by linarith)
    rwa [round_double_top] at this
  have hlt : round_double (y * 1000000000) < ((1000000000 : Int) : ℚ) := by
    have : (0 : ℚ) < 2 ^ (-23 : Int) := two_zpow_pos _
    push_cast
    linarith
  have := to_long_lt _ 1000000000 hlo hlt
  exact ⟨(to_long_bounds _ 1000000000 hlo (le_of_lt hlt)).1, by omega⟩

/-- Nanoseconds computed from a fraction between 0 and 1. -/
theorem nsec_of_frac_le_one (y : ℚ) (h0 : 0 ≤ y) (h1 : y ≤ 1) :
    0 ≤ to_long (round_double (y * 1000000000)) ∧
    to_long (round_double (y * 1000000000)) ≤ 1000000000 := by
  have hlo : 0 ≤ round_double (y * 1000000000) := by
    have := round_double_mono 0 (y * 1000000000) (by positivity)
    rwa [round_double_zero] at this
  have hhi : round_double (y * 1000000000) ≤ ((1000000000 : Int) : ℚ) := by
    have := round_double_mono (y * 1000000000) 1000000000 (by linarith)
    rw [round_double_billion] at this
    push_cast
    exact this
  exact to_long_bounds _ 1000000000 hlo hhi

theorem nsec_of_neg_frac (y : ℚ) :
    to_long (round_double (-y * 1000000000)) = -to_long (round_double (y * 1000000000)) := by
  rw [neg_mul, round_double_neg, to_long_neg]

/-- A binary64 value below 1 is at most `1 - 2 ^ (-53)`. -/
theorem double_lt_one (m : Nat) (e : Int) (hm : m < 2 ^ 53) (h : (m : ℚ) * 2 ^ e < 1) :
    (m : ℚ) * 2 ^ e ≤ 1 - 2 ^ (-53 : Int) := by
  by_cases he : -53 ≤ e
  · obtain ⟨k, hk⟩ : ∃ k : Nat, e = -53 + k := ⟨(e + 53).toNat, by omega⟩
    have hpow : (2 : ℚ) ^ e = 2 ^ (-53 : Int) * 2 ^ k := by
      rw [hk, zpow_add₀ (by norm_num), zpow_natCast]
    have hint : m * 2 ^ k < 2 ^ 53 := by
      have h' : ((m * 2 ^ k : Nat) : ℚ) < ((2 ^ 53 : Nat) : ℚ) := by
        push_cast
        rw [hpow] at h
        have h53 : (2 : ℚ) ^ (-53 : Int) = 1 / 2 ^ 53 := by norm_num
        rw [h53] at h
        have : (m : ℚ) * (2 : ℚ) ^ k < 2 ^ 53 := by
          have hp : (0 : ℚ) < 2 ^ 53 := by norm_num
          have := mul_lt_mul_of_pos_right h hp
          field_simp at this
          linarith
        exact this
      exact_mod_cast h'
    have hle : ((m * 2 ^ k : Nat) : ℚ) ≤ ((2 ^ 53 - 1 : Nat) : ℚ) := by
      exact_mod_cast (by omega : m * 2 ^ k ≤ 2 ^ 53 - 1)
    rw [hpow]
    have h53 : (2 : ℚ) ^ (-53 : Int) = 1 / 2 ^ 53 := by norm_num
    rw [h53]
    push_cast at hle
    have hp : (0 : ℚ) < 1 / 2 ^ 53 := by norm_num
    have := mul_le_mul_of_nonneg_left hle (le_of_lt hp)
    norm_num at this ⊢
    linarith
  · have hm' : (m : ℚ) < 2 ^ (53 : Int) := by
      have h2 : (2 : ℚ) ^ (53 : Int) = ((2 ^ 53 : Nat) : ℚ) := by norm_num
      rw [h2]
      exact_mod_cast hm
    have hpow : (2 : ℚ) ^ e ≤ 2 ^ (-54 : Int) := zpow_le_zpow_right₀ (by norm_num) (by omega)
    have hpos := two_zpow_pos e
    have h0 : (0 : ℚ) ≤ (m : ℚ) := by positivity
    have : (m : ℚ) * 2 ^ e ≤ 2 ^ (53 : Int) * 2 ^ (-54 : Int) :=
      mul_le_mul (le_of_lt hm') hpow (le_of_lt hpos) (by positivity)
    norm_num at this ⊢
    linarith

theorem two_zpow_le_one (e : Int) (he : e ≤ 0) : (2 : ℚ) ^ e ≤ 1 := by
  have := zpow_le_zpow_right₀ (a := (2 : ℚ)) (by norm_num) he
  simpa using this

/-- The floor of a binary64 value is a binary64 value. -/
theorem double_floor_exact (m e : Int) (hm : |m| < 2 ^ 53) :
    round_double ((⌊(m : ℚ) * 2 ^ e⌋ : Int) : ℚ) = ((⌊(m : ℚ) * 2 ^ e⌋ : Int) : ℚ) := by
  by_cases he : 0 ≤ e
  · obtain ⟨k, hk⟩ : ∃ k : Nat, e = k := ⟨e.toNat, by omega⟩
    have hs : (m : ℚ) * 2 ^ e = ((m * 2 ^ k : Int) : ℚ) := by
      rw [hk, zpow_natCast]
      push_cast
      ring
    have hf : ((⌊(m : ℚ) * 2 ^ e⌋ : Int) : ℚ) = (m : ℚ) * 2 ^ e := by
      rw [hs, Int.floor_intCast]
    rw [hf]
    exact round_double_exact m e hm (by omega)
  · have h1 := two_zpow_le_one e (by omega)
    have hp := two_zpow_pos e
    have habs : |(m : ℚ) * 2 ^ e| ≤ |(m : ℚ)| := by
      rw [abs_mul, abs_of_pos hp]
      exact mul_le_of_le_one_right (abs_nonneg _) h1
    have hlo : -|m| ≤ ⌊(m : ℚ) * 2 ^ e⌋ := by
      rw [Int.le_floor]
      have := neg_abs_le ((m : ℚ) * 2 ^ e)
      push_cast
      linarith [neg_le_neg habs]
    have hhi : ⌊(m : ℚ) * 2 ^ e⌋ ≤ |m| := by
      have h2 : ((⌊(m : ℚ) * 2 ^ e⌋ : Int) : ℚ) ≤ ((|m| : Int) : ℚ) := by
        have := Int.floor_le ((m : ℚ) * 2 ^ e)
        have := le_abs_self ((m : ℚ) * 2 ^ e)
        push_cast
        linarith
      exact_mod_cast h2
    apply round_double_intCast
    rw [abs_lt]
    constructor <;> omega

/-- The ceiling of a binary64 value is a binary64 value. -/
theorem double_ceil_exact (m e : Int) (hm : |m| < 2 ^ 53) :
    round_double ((⌈(m : ℚ) * 2 ^ e⌉ : Int) : ℚ) = ((⌈(m : ℚ) * 2 ^ e⌉ : Int) : ℚ) := by
  have h := double_floor_exact (-m) e (by rwa [abs_neg])
  have hc : ⌈(m : ℚ) * 2 ^ e⌉ = -⌊((-m : Int) : ℚ) * 2 ^ e⌋ := by
    rw [← Int.ceil_neg]
    congr 1
    push_cast
    ring
  rw [hc]
  push_cast at h ⊢
  rw [round_double_neg, h]

/-- For a non-negative binary64 value the difference to its floor is
computed exactly, and it is at most the largest binary64 value below 1. -/
theorem double_frac_exact (m e : Int) (h0 : 0 ≤ m) (hm : m < 2 ^ 53) (he : -1074 ≤ e) :
    round_double ((m : ℚ) * 2 ^ e - (⌊(m : ℚ) * 2 ^ e⌋ : Int)) =
        (m : ℚ) * 2 ^ e - (⌊(m : ℚ) * 2 ^ e⌋ : Int) ∧
    0 ≤ (m : ℚ) * 2 ^ e - (⌊(m : ℚ) * 2 ^ e⌋ : Int) ∧
    (m : ℚ) * 2 ^ e - (⌊(m : ℚ) * 2 ^ e⌋ : Int) ≤ 1 - 2 ^ (-53 : Int) := by
  have hfl := Int.floor_le ((m : ℚ) * 2 ^ e)
  have hfl1 := Int.lt_floor_add_one ((m : ℚ) * 2 ^ e)
  by_cases hpos : 0 ≤ e
  · obtain ⟨k, hk⟩ : ∃ k : Nat, e = k := ⟨e.toNat, by omega⟩
    have hs : (m : ℚ) * 2 ^ e = ((m * 2 ^ k : Int) : ℚ) := by
      rw [hk, zpow_natCast]
      push_cast
      ring
    have hz : (m : ℚ) * 2 ^ e - (⌊(m : ℚ) * 2 ^ e⌋ : Int) = 0 := by
      rw [hs, Int.floor_intCast]
      ring
    rw [hz, round_double_zero]
    norm_num
  · obtain ⟨k, hk⟩ : ∃ k : Nat, e = -(k : Int) := ⟨(-e).toNat, by omega⟩
    have hp := two_zpow_pos e
    have hinv : (2 : ℚ) ^ k * 2 ^ e = 1 := by
      rw [hk, zpow_neg, zpow_natCast]
      field_simp
    have hsnn : (0 : ℚ) ≤ (m : ℚ) * 2 ^ e := mul_nonneg (by exact_mod_cast h0) (le_of_lt hp)
    have hfnn : 0 ≤ ⌊(m : ℚ) * 2 ^ e⌋ := Int.floor_nonneg.mpr hsnn
    have hrep : ((m - ⌊(m : ℚ) * 2 ^ e⌋ * 2 ^ k : Int) : ℚ) * 2 ^ e =
        (m : ℚ) * 2 ^ e - (⌊(m : ℚ) * 2 ^ e⌋ : Int) := by
      push_cast
      rw [sub_mul, mul_assoc, hinv, mul_one]
    have hm0 : 0 ≤ m - ⌊(m : ℚ) * 2 ^ e⌋ * 2 ^ k := by
      have h1 : (0 : ℚ) ≤ ((m - ⌊(m : ℚ) * 2 ^ e⌋ * 2 ^ k : Int) : ℚ) * 2 ^ e := by
        rw [hrep]
        linarith
      have h2 : (0 : ℚ) ≤ ((m - ⌊(m : ℚ) * 2 ^ e⌋ * 2 ^ k : Int) : ℚ) :=
        nonneg_of_mul_nonneg_left h1 hp
      exact_mod_cast h2
    have hm1 : m - ⌊(m : ℚ) * 2 ^ e⌋ * 2 ^ k ≤ m := by
      have : 0 ≤ ⌊(m : ℚ) * 2 ^ e⌋ * 2 ^ k := mul_nonneg hfnn (by positivity)
      omega
    obtain ⟨n, hn⟩ : ∃ n : Nat, m - ⌊(m : ℚ) * 2 ^ e⌋ * 2 ^ k = n :=
      ⟨(m - ⌊(m : ℚ) * 2 ^ e⌋ * 2 ^ k).toNat, by omega⟩
    have hn53 : n < 2 ^ 53 := by
      have : (n : Int) < 2 ^ 53 := by omega
      exact_mod_cast this
    rw [← hrep, hn]
    refine ⟨?_, ?_, ?_⟩
    · exact round_double_exact n e (by rw [abs_lt]; constructor <;> omega) he
    · exact mul_nonneg (by positivity) (le_of_lt hp)
    · have hlt : ((n : Nat) : ℚ) * 2 ^ e < 1 := by
        have : (((n : Nat) : Int) : ℚ) * 2 ^ e < 1 := by
          rw [← hn, hrep]
          linarith
        simpa using this
      simpa using double_lt_one n e hn53 hlt

/-- The nanoseconds computed for a non-negative binary64 value: the
difference to the floor is exact, and the result lies in `[0, 1e9)`. -/
theorem frac_nsec_of_nonneg (m e : Int) (hm : |m| < 2 ^ 53) (he : -1074 ≤ e)
    (hs : 0 ≤ (m : ℚ) * 2 ^ e) :
    frac_nsec ((m : ℚ) * 2 ^ e) ⌊(m : ℚ) * 2 ^ e⌋ =
        to_long (round_double (((m : ℚ) * 2 ^ e - (⌊(m : ℚ) * 2 ^ e⌋ : Int)) * 1000000000)) ∧
    0 ≤ frac_nsec ((m : ℚ) * 2 ^ e) ⌊(m : ℚ) * 2 ^ e⌋ ∧
    frac_nsec ((m : ℚ) * 2 ^ e) ⌊(m : ℚ) * 2 ^ e⌋ ≤ 999999999 := by
  have hm0 : 0 ≤ m := by
    have : (0 : ℚ) ≤ (m : ℚ) := nonneg_of_mul_nonneg_left hs (two_zpow_pos e)
    exact_mod_cast this
  have hm1 : m < 2 ^ 53 := (abs_lt.mp hm).2
  obtain ⟨h1, h2, h3⟩ := double_frac_exact m e hm0 hm1 he
  have hf : frac_nsec ((m : ℚ) * 2 ^ e) ⌊(m : ℚ) * 2 ^ e⌋ =
      to_long (round_double (((m : ℚ) * 2 ^ e - (⌊(m : ℚ) * 2 ^ e⌋ : Int)) * 1000000000)) := by
    rw [frac_nsec, double_floor_exact m e hm, h1]
  rw [hf]
  exact ⟨rfl, nsec_of_frac_lt_one _ h2 h3⟩

/-- The nanoseconds computed for a negative binary64 value split at its
ceiling: the difference is exact, and the result lies in `(-1e9, 0]`. -/
theorem frac_nsec_of_neg (m e : Int) (hm : |m| < 2 ^ 53) (he : -1074 ≤ e)
    (hs : (m : ℚ) * 2 ^ e < 0) :
    frac_nsec ((m : ℚ) * 2 ^ e) ⌈(m : ℚ) * 2 ^ e⌉ =
        to_long (round_double (((m : ℚ) * 2 ^ e - (⌈(m : ℚ) * 2 ^ e⌉ : Int)) * 1000000000)) ∧
    -999999999 ≤ frac_nsec ((m : ℚ) * 2 ^ e) ⌈(m : ℚ) * 2 ^ e⌉ ∧
    frac_nsec ((m : ℚ) * 2 ^ e) ⌈(m : ℚ) * 2 ^ e⌉ ≤ 0 := by
  have hmneg : m < 0 := by
    by_contra hc
    have : (0 : ℚ) ≤ (m : ℚ) * 2 ^ e :=
      mul_nonneg (by exact_mod_cast (not_lt.mp hc)) (le_of_lt (two_zpow_pos e))
    linarith
  have hm1 : -m < 2 ^ 53 := by
    have := (abs_lt.mp hm).1
    omega
  obtain ⟨h1, h2, h3⟩ := double_frac_exact (-m) e (by omega) hm1 he
  have hneg : ((-m : Int) : ℚ) * 2 ^ e = -((m : ℚ) * 2 ^ e) := by
    push_cast
    ring
  have hc : ((⌈(m : ℚ) * 2 ^ e⌉ : Int) : ℚ) = -((⌊((-m : Int) : ℚ) * 2 ^ e⌋ : Int) : ℚ) := by
    rw [hneg, Int.floor_neg]
    push_cast
    ring
  have hd : (m : ℚ) * 2 ^ e - (⌈(m : ℚ) * 2 ^ e⌉ : Int) =
      -(((-m : Int) : ℚ) * 2 ^ e - (⌊((-m : Int) : ℚ) * 2 ^ e⌋ : Int)) := by
    rw [hc, hneg]
    ring
  have hf : frac_nsec ((m : ℚ) * 2 ^ e) ⌈(m : ℚ) * 2 ^ e⌉ =
      to_long (round_double (((m : ℚ) * 2 ^ e - (⌈(m : ℚ) * 2 ^ e⌉ : Int)) * 1000000000)) := by
    rw [frac_nsec, double_ceil_exact m e hm, hd, round_double_neg, h1]
  rw [hf, hd, nsec_of_neg_frac]
  have := nsec_of_frac_lt_one _ h2 h3
  exact ⟨rfl, by omega, by omega⟩

/-- The nanoseconds computed by `set_mock_time_epoch` for any binary64
value lie in `[0, 1e9]`. -/
theorem frac_nsec_floor_bounds (m e : Int) (hm : |m| < 2 ^ 53) :
    frac_nsec ((m : ℚ) * 2 ^ e) ⌊(m : ℚ) * 2 ^ e⌋ =
        to_long (round_double
          (round_double ((m : ℚ) * 2 ^ e - (⌊(m : ℚ) * 2 ^ e⌋ : Int)) * 1000000000)) ∧
    0 ≤ frac_nsec ((m : ℚ) * 2 ^ e) ⌊(m : ℚ) * 2 ^ e⌋ ∧
    frac_nsec ((m : ℚ) * 2 ^ e) ⌊(m : ℚ) * 2 ^ e⌋ ≤ 1000000000 := by
  have hfl := Int.floor_le ((m : ℚ) * 2 ^ e)
  have hfl1 := Int.lt_floor_add_one ((m : ℚ) * 2 ^ e)
  have hf : frac_nsec ((m : ℚ) * 2 ^ e) ⌊(m : ℚ) * 2 ^ e⌋ =
      to_long (round_double
        (round_double ((m : ℚ) * 2 ^ e - (⌊(m : ℚ) * 2 ^ e⌋ : Int)) * 1000000000)) := by
    rw [frac_nsec, double_floor_exact m e hm]
  have h0 : 0 ≤ round_double ((m : ℚ) * 2 ^ e - (⌊(m : ℚ) * 2 ^ e⌋ : Int)) := by
    have := round_double_mono 0 ((m : ℚ) * 2 ^ e - (⌊(m : ℚ) * 2 ^ e⌋ : Int)) (by linarith)
    rwa [round_double_zero] at this
  have h1 : round_double ((m : ℚ) * 2 ^ e - (⌊(m : ℚ) * 2 ^ e⌋ : Int)) ≤ 1 := by
    have := round_double_mono ((m : ℚ) * 2 ^ e - (⌊(m : ℚ) * 2 ^ e⌋ : Int)) 1 (by linarith)
    rwa [round_double_one] at this
  rw [hf]
  exact ⟨rfl, nsec_of_frac_le_one _ h0 h1⟩

theorem in_long_of_bounds (v : Int) (h0 : -1000000000 ≤ v) (h1 : v ≤ 1000000000) :
    in_long v = true := by
  simp only [in_long, Bool.and_eq_true, decide_eq_true_eq]
  omega

/-- Evaluation of the nanosecond expression when the difference is known
and its product with `1e9` is an integer below `2 ^ 53`. -/
theorem frac_nsec_eval (s : ℚ) (w n : Int) (d : ℚ) (hw : |w| < 2 ^ 53)
    (hd : round_double (s - (w : ℚ)) = d) (hn : d * 1000000000 = (n : ℚ))
    (hn53 : |n| < 2 ^ 53) : frac_nsec s w = n := by
  rw [frac_nsec, round_double_intCast w hw, hd, hn, round_double_intCast n hn53,
    to_long_intCast]

/-- Status text after a Fixed record has been written. -/
theorem status_fixed_record (a b c d : Int) (ha : in_long a = true) (hb : in_long b = true) :
    pg_mock_time_status (some (record_text true false a b c d)) =
      "mock: enabled (fixed) ".toList ++ put_int a ++ " s, ".toList ++ put_int b ++
        " ns (UNIX epoch)".toList := by
  have hs : scan_ints 6 (record_text true false a b c d) = [1, 0, a, b, c, d] :=
    (scan_ints_record true false a b c d).1
  rw [status_of_fixed _ 1 a b c d hs (by decide), fixed_report_fits a b ha hb]

/-- Status text after an Offset record has been written. -/
theorem status_offset_record (a b c d : Int) (hc : in_long c = true) (hd : in_long d = true) :
    pg_mock_time_status (some (record_text true true a b c d)) =
      "mock: enabled (offset) ".toList ++ put_int c ++ " s, ".toList ++ put_int d ++
        " ns".toList := by
  have hs : scan_ints 6 (record_text true true a b c d) = [1, 1, a, b, c, d] :=
    (scan_ints_record true true a b c d).1
  rw [status_of_offset _ 1 1 a b c d hs (by decide) (by decide), offset_report_fits c d hc hd]

/-- The record written for the epoch 100.5. -/
theorem epoch_record_100_5 (old : ConfFile) :
    set_mock_time_epoch true old (201 / 2) = some "1 0 100 500000000 0 0\n".toList := by
  have hfl : ⌊(201 / 2 : ℚ)⌋ = 100 := by
    rw [Int.floor_eq_iff]
    norm_num
  have hd : round_double ((201 / 2 : ℚ) - ((100 : Int) : ℚ)) = 1 / 2 := by
    have e1 : (201 / 2 : ℚ) - ((100 : Int) : ℚ) = ((1 : Int) : ℚ) * 2 ^ (-1 : Int) := by norm_num
    rw [e1, round_double_exact 1 (-1) (by decide) (by decide)]
    norm_num
  have hn : frac_nsec (201 / 2) 100 = 500000000 :=
    frac_nsec_eval _ 100 500000000 (1 / 2) (by decide) hd (by norm_num) (by decide)
  rw [set_mock_time_epoch, hfl, hn]
  simp only [write_config, if_true]
  decide

/-- The record written for the offset -2.25. -/
theorem offset_record_m2_25 (old : ConfFile) :
    set_mock_time_offset_seconds true old (-9 / 4) =
      some "1 1 0 0 -2 -250000000\n".toList := by
  have hce : ⌈(-9 / 4 : ℚ)⌉ = -2 := by
    rw [Int.ceil_eq_iff]
    norm_num
  have hd : round_double ((-9 / 4 : ℚ) - ((-2 : Int) : ℚ)) = -1 / 4 := by
    have e1 : (-9 / 4 : ℚ) - ((-2 : Int) : ℚ) = ((-1 : Int) : ℚ) * 2 ^ (-2 : Int) := by norm_num
    rw [e1, round_double_exact (-1) (-2) (by decide) (by decide)]
    norm_num
  have hn : frac_nsec (-9 / 4) (-2) = -250000000 :=
    frac_nsec_eval _ (-2) (-250000000) (-1 / 4) (by decide) hd (by norm_num) (by decide)
  have hneg : ¬ ((-9 / 4 : ℚ) ≥ 0) := by norm_num
  rw [set_mock_time_offset_seconds, if_neg hneg, hce, hn]
  simp only [write_config, if_true]
  decide

/-- The record written for the epoch `-2 ^ (-60)`: the difference to the
floor `-1` is rounded up to 1, and the nanoseconds are `1e9`. -/
theorem epoch_record_tiny_negative (old : ConfFile) :
    set_mock_time_epoch true old (-(1 / 2 ^ 60)) = some "1 0 -1 1000000000 0 0\n".toList := by
  have hfl : ⌊(-(1 / 2 ^ 60) : ℚ)⌋ = -1 := by
    rw [Int.floor_eq_iff]
    norm_num
  have hu : ulp_exp ((-(1 / 2 ^ 60) : ℚ) - ((-1 : Int) : ℚ)) = -53 := by
    rw [ulp_exp_eq _ (-1) (by norm_num) (by norm_num) (by decide)]
    rfl
  have hd : round_double ((-(1 / 2 ^ 60) : ℚ) - ((-1 : Int) : ℚ)) = 1 := by
    rw [round_double_of_nonneg _ (by norm_num), round_pos, hu,
      round_half_even_of_gt _ 9007199254740991 (by norm_num) (by norm_num)]
    norm_num
  have hn : frac_nsec (-(1 / 2 ^ 60)) (-1) = 1000000000 :=
    frac_nsec_eval _ (-1) 1000000000 1 (by decide) hd (by norm_num) (by decide)
  rw [set_mock_time_epoch, hfl, hn]
  simp only [write_config, if_true]
  decide

theorem round_double_half : round_double (1 / 2) = 1 / 2 := by
  have e1 : (1 / 2 : ℚ) = ((1 : Int) : ℚ) * 2 ^ (-1 : Int) := by norm_num
  rw [e1, round_double_exact 1 (-1) (by decide) (by decide)]

/-- A rounded value below 1 is at most the largest binary64 value below
1. -/
theorem round_double_lt_one (y : ℚ) (h0 : 0 ≤ y) (h1 : round_double y < 1) :
    round_double y ≤ 1 - 2 ^ (-53 : Int) := by
  by_cases hy : y < 1 / 2
  · have := round_double_mono y (1 / 2) (le_of_lt hy)
    rw [round_double_half] at this
    have h53 : (2 : ℚ) ^ (-53 : Int) ≤ 1 / 2 := by norm_num
    generalize (2 : ℚ) ^ (-53 : Int) = p at h53 ⊢
    linarith
  · have hy1 : y < 1 := by
      by_contra hc
      have := round_double_mono 1 y (not_lt.mp hc)
      rw [round_double_one] at this
      linarith
    have hu : ulp_exp y = -53 := by
      rw [ulp_exp_eq y (-1) (by norm_num; linarith) (by norm_num; linarith) (by decide)]
      rfl
    rw [round_double_of_nonneg y h0, round_pos, hu] at h1 ⊢
    have hp : (0 : ℚ) < 2 ^ (-53 : Int) := two_zpow_pos _
    have hk : (round_half_even (y / 2 ^ (-53 : Int)) : ℚ) < ((2 ^ 53 : Int) : ℚ) := by
      have h53 : (2 : ℚ) ^ (-53 : Int) = 1 / 2 ^ 53 := by norm_num
      rw [h53] at h1
      push_cast
      have hpp : (0 : ℚ) < 2 ^ 53 := by norm_num
      have := mul_lt_mul_of_pos_right h1 hpp
      field_simp at this
      rw [h53]
      linarith
    have hk2 : round_half_even (y / 2 ^ (-53 : Int)) ≤ 2 ^ 53 - 1 := by
      have : round_half_even (y / 2 ^ (-53 : Int)) < 2 ^ 53 := by exact_mod_cast hk
      omega
    have hk3 : (round_half_even (y / 2 ^ (-53 : Int)) : ℚ) ≤ ((2 ^ 53 - 1 : Int) : ℚ) := by
      exact_mod_cast hk2
    have := mul_le_mul_of_nonneg_right hk3 (le_of_lt hp)
    have e2 : ((2 ^ 53 - 1 : Int) : ℚ) * 2 ^ (-53 : Int) = 1 - 2 ^ (-53 : Int) := by norm_num
    rw [e2] at this
    exact this

/-- The nanoseconds computed by `set_mock_time_epoch` are below `1e9`
whenever the computed difference to the floor is below 1. -/
theorem frac_nsec_floor_lt (m e : Int) (hm : |m| < 2 ^ 53)
    (h1 : round_double ((m : ℚ) * 2 ^ e - (⌊(m : ℚ) * 2 ^ e⌋ : Int)) < 1) :
    frac_nsec ((m : ℚ) * 2 ^ e) ⌊(m : ℚ) * 2 ^ e⌋ < 1000000000 := by
  have hfl := Int.floor_le ((m : ℚ) * 2 ^ e)
  have h0 : 0 ≤ round_double ((m : ℚ) * 2 ^ e - (⌊(m : ℚ) * 2 ^ e⌋ : Int)) := by
    have := round_double_mono 0 ((m : ℚ) * 2 ^ e - (⌊(m : ℚ) * 2 ^ e⌋ : Int)) (by linarith)
    rwa [round_double_zero] at this
  have h2 := round_double_lt_one _ (by linarith) h1
  rw [(frac_nsec_floor_bounds m e hm).1]
  have := (nsec_of_frac_lt_one _ h0 h2).2
  omega

/-- The record written for the epoch -0.25. -/
theorem epoch_record_m0_25 (old : ConfFile) :
    set_mock_time_epoch true old (-1 / 4) = some "1 0 -1 750000000 0 0\n".toList := by
  have hfl : ⌊(-1 / 4 : ℚ)⌋ = -1 := by
    rw [Int.floor_eq_iff]
    norm_num
  have hd : round_double ((-1 / 4 : ℚ) - ((-1 : Int) : ℚ)) = 3 / 4 := by
    have e1 : (-1 / 4 : ℚ) - ((-1 : Int) : ℚ) = ((3 : Int) : ℚ) * 2 ^ (-2 : Int) := by norm_num
    rw [e1, round_double_exact 3 (-2) (by decide) (by decide)]
    norm_num
  have hn : frac_nsec (-1 / 4) (-1) = 750000000 :=
    frac_nsec_eval _ (-1) 750000000 (3 / 4) (by decide) hd (by norm_num) (by decide)
  rw [set_mock_time_epoch, hfl, hn]
  simp only [write_config, if_true]
  decide

/-- The record written for the binary64 value nearest to 0.3, which is
`5404319552844595 * 2 ^ (-54)`: the product with `1e9` is rounded up to
300000000, where the exact product truncates to 299999999. -/
theorem epoch_record_0_3 (old : ConfFile) :
    set_mock_time_epoch true old (5404319552844595 / 2 ^ 54) =
        some "1 0 0 300000000 0 0\n".toList ∧
    to_long ((5404319552844595 / 2 ^ 54 : ℚ) * 1000000000) = 299999999 := by
  have hfl : ⌊(5404319552844595 / 2 ^ 54 : ℚ)⌋ = 0 := by
    rw [Int.floor_eq_iff]
    norm_num
  have hd : round_double ((5404319552844595 / 2 ^ 54 : ℚ) - ((0 : Int) : ℚ)) =
      5404319552844595 / 2 ^ 54 := by
    have e1 : (5404319552844595 / 2 ^ 54 : ℚ) - ((0 : Int) : ℚ) =
        ((5404319552844595 : Int) : ℚ) * 2 ^ (-54 : Int) := by norm_num
    rw [e1, round_double_exact 5404319552844595 (-54) (by decide) (by decide)]
    norm_num
  have hu : ulp_exp ((5404319552844595 / 2 ^ 54 : ℚ) * 1000000000) = -24 := by
    rw [ulp_exp_eq _ 28 (by norm_num) (by norm_num) (by decide)]
    rfl
  have hp : round_double ((5404319552844595 / 2 ^ 54 : ℚ) * 1000000000) = 300000000 := by
    rw [round_double_of_nonneg _ (by norm_num), round_pos, hu,
      round_half_even_of_gt _ 5033164799999999 (by norm_num) (by norm_num)]
    norm_num
  have hn : frac_nsec (5404319552844595 / 2 ^ 54) 0 = 300000000 := by
    rw [frac_nsec, round_double_intCast 0 (by decide), hd, hp]
    exact to_long_intCast 300000000
  constructor
  · rw [set_mock_time_epoch, hfl, hn]
    simp only [write_config, if_true]
    decide
  · rw [to_long_of_nonneg _ (by norm_num), Int.floor_eq_iff]
    norm_num

/-! ## The writers -/

/-- C11, as stated, fails when `fopen` for writing fails: `write_config`
then writes nothing, so after `set_mock_time_epoch` on 100.5 the status
still reports the record that was there before. -/
theorem set_epoch_unopened_counterexample :
    set_mock_time_epoch false (some "1 1 0 0 5 0\n".toList) (201 / 2) =
      some "1 1 0 0 5 0\n".toList ∧
    pg_mock_time_status (set_mock_time_epoch false (some "1 1 0 0 5 0\n".toList) (201 / 2)) =
      "mock: enabled (offset) 5 s, 0 ns".toList ∧
    pg_mock_time_status (set_mock_time_epoch false (some "1 1 0 0 5 0\n".toList) (201 / 2)) ≠
      "mock: enabled (fixed) 100 s, 500000000 ns (UNIX epoch)".toList := by
  have h : set_mock_time_epoch false (some "1 1 0 0 5 0\n".toList) (201 / 2) =
      some "1 1 0 0 5 0\n".toList := by
    simp [set_mock_time_epoch, write_config]
  rw [h]
  decide

/-- C11, amended. When `fopen` for writing succeeds, `set_mock_time_epoch`
on a binary64 value `x` whose floor fits `long long` writes the record with
enabled 1, use_offset 0, `fixed_sec = floor(x)`,
`fixed_nsec = (x - floor(x)) * 1e9` truncated toward zero (difference and
product in `double` arithmetic) and both offset fields 0; the status read
right after reports mode Fixed with exactly these two numbers; for
`x = 100.5` the text is
`mock: enabled (fixed) 100 s, 500000000 ns (UNIX epoch)`. -/
theorem set_epoch_then_status (old : ConfFile) (x : ℚ) (m e : Int)
    (hx : x = (m : ℚ) * 2 ^ e) (hm : |m| < 2 ^ 53) (hr : in_long ⌊x⌋ = true) :
    set_mock_time_epoch true old x =
      some (record_text true false ⌊x⌋
        (to_long (round_double (round_double (x - (⌊x⌋ : Int)) * 1000000000))) 0 0) ∧
    read_config (set_mock_time_epoch true old x) =
      some ⟨true, false, ⌊x⌋,
        to_long (round_double (round_double (x - (⌊x⌋ : Int)) * 1000000000)), 0, 0⟩ ∧
    pg_mock_time_status (set_mock_time_epoch true old x) =
      "mock: enabled (fixed) ".toList ++ put_int ⌊x⌋ ++ " s, ".toList ++
        put_int (to_long (round_double (round_double (x - (⌊x⌋ : Int)) * 1000000000))) ++
        " ns (UNIX epoch)".toList ∧
    pg_mock_time_status (set_mock_time_epoch true old (201 / 2)) =
      "mock: enabled (fixed) 100 s, 500000000 ns (UNIX epoch)".toList := by
  subst hx
  obtain ⟨hN, h0, h1⟩ := frac_nsec_floor_bounds m e hm
  have hset : set_mock_time_epoch true old ((m : ℚ) * 2 ^ e) =
      some (record_text true false ⌊(m : ℚ) * 2 ^ e⌋
        (frac_nsec ((m : ℚ) * 2 ^ e) ⌊(m : ℚ) * 2 ^ e⌋) 0 0) := by
    simp [set_mock_time_epoch, write_config]
  rw [← hN, hset, read_config_record,
    status_fixed_record _ _ _ _ hr (in_long_of_bounds _ (by omega) h1), epoch_record_100_5]
  exact ⟨rfl, rfl, rfl, by decide⟩

/-- Instance of C11 amended: the epoch 100.5, which is `201 * 2 ^ (-1)`. -/
theorem set_epoch_then_status_witness :
    (201 / 2 : ℚ) = ((201 : Int) : ℚ) * 2 ^ (-1 : Int) ∧
    read_config (set_mock_time_epoch true none (201 / 2)) =
      some ⟨true, false, ⌊(201 / 2 : ℚ)⌋,
        to_long (round_double
          (round_double ((201 / 2 : ℚ) - (⌊(201 / 2 : ℚ)⌋ : Int)) * 1000000000)), 0, 0⟩ :=
  ⟨by norm_num,
    (set_epoch_then_status none (201 / 2) 201 (-1) (by norm_num) (by norm_num)
      (by
        have h : ⌊(201 / 2 : ℚ)⌋ = 100 := by
          rw [Int.floor_eq_iff]
          norm_num
        rw [h]
        decide)).2.1⟩

/-- C12, as stated, fails when `fopen` for writing fails: after
`set_mock_time_offset_seconds` on -2.25 the file is unchanged and the status
still reports `mock: disabled`. -/
theorem set_offset_unopened_counterexample :
    set_mock_time_offset_seconds false (some "0 0 0 0 0 0\n".toList) (-9 / 4) =
      some "0 0 0 0 0 0\n".toList ∧
    pg_mock_time_status
        (set_mock_time_offset_seconds false (some "0 0 0 0 0 0\n".toList) (-9 / 4)) =
      "mock: disabled".toList ∧
    pg_mock_time_status
        (set_mock_time_offset_seconds false (some "0 0 0 0 0 0\n".toList) (-9 / 4)) ≠
      "mock: enabled (offset) -2 s, -250000000 ns".toList := by
  have h : set_mock_time_offset_seconds false (some "0 0 0 0 0 0\n".toList) (-9 / 4) =
      some "0 0 0 0 0 0\n".toList := by
    simp [set_mock_time_offset_seconds, write_config]
  rw [h]
  decide

/-- C12, amended. When `fopen` for writing succeeds,
`set_mock_time_offset_seconds` on a binary64 value `s` whose whole part
fits `long long` splits by truncation toward zero: `off_sec` is `floor(s)`
for `s ≥ 0` and `ceil(s)` for `s < 0`, and `off_nsec` is
`(s - off_sec) * 1e9` truncated toward zero (the difference is exact, the
product is the `double` product), so `off_nsec` is non-negative for
`s ≥ 0`, non-positive for `s < 0`, and `|off_nsec| < 1e9`; the record has
enabled 1, use_offset 1 and both fixed fields 0; the status read right
after reports mode Offset with exactly these two numbers; for `s = -2.25`
the text is `mock: enabled (offset) -2 s, -250000000 ns`. -/
theorem set_offset_then_status (old : ConfFile) (s : ℚ) (m e W N : Int)
    (hs : s = (m : ℚ) * 2 ^ e) (hm : |m| < 2 ^ 53) (he : -1074 ≤ e)
    (hW : W = if s ≥ 0 then ⌊s⌋ else ⌈s⌉)
    (hN : N = to_long (round_double ((s - (W : ℚ)) * 1000000000)))
    (hr : in_long W = true) :
    W = to_long s ∧
    set_mock_time_offset_seconds true old s = some (record_text true true 0 0 W N) ∧
    (0 ≤ s → 0 ≤ N) ∧ (s < 0 → N ≤ 0) ∧ -1000000000 < N ∧ N < 1000000000 ∧
    read_config (set_mock_time_offset_seconds true old s) = some ⟨true, true, 0, 0, W, N⟩ ∧
    pg_mock_time_status (set_mock_time_offset_seconds true old s) =
      "mock: enabled (offset) ".toList ++ put_int W ++ " s, ".toList ++ put_int N ++
        " ns".toList ∧
    pg_mock_time_status (set_mock_time_offset_seconds true old (-9 / 4)) =
      "mock: enabled (offset) -2 s, -250000000 ns".toList := by
  subst hs
  have hWt : W = to_long ((m : ℚ) * 2 ^ e) := by
    rw [hW, to_long]
  have hfrac : N = frac_nsec ((m : ℚ) * 2 ^ e) W ∧ (0 ≤ (m : ℚ) * 2 ^ e → 0 ≤ N) ∧
      ((m : ℚ) * 2 ^ e < 0 → N ≤ 0) ∧ -1000000000 < N ∧ N < 1000000000 := by
    by_cases h0 : (m : ℚ) * 2 ^ e ≥ 0
    · rw [if_pos h0] at hW
      subst hW
      obtain ⟨h1, h2, h3⟩ := frac_nsec_of_nonneg m e hm he h0
      rw [← h1] at hN
      rw [hN]
      exact ⟨rfl, fun _ => h2, fun hlt => absurd h0 (not_le.mpr hlt), by omega, by omega⟩
    · rw [if_neg h0] at hW
      subst hW
      obtain ⟨h1, h2, h3⟩ := frac_nsec_of_neg m e hm he (not_le.mp h0)
      rw [← h1] at hN
      rw [hN]
      exact ⟨rfl, fun hge => absurd hge h0, fun _ => h3, by omega, by omega⟩
  obtain ⟨hNf, hpos, hneg, hlo, hhi⟩ := hfrac
  have hset : set_mock_time_offset_seconds true old ((m : ℚ) * 2 ^ e) =
      some (record_text true true 0 0 W N) := by
    rw [hNf, hW]
    simp [set_mock_time_offset_seconds, write_config]
  rw [hset, read_config_record,
    status_offset_record _ _ _ _ hr (in_long_of_bounds _ (by omega) (by omega)),
    offset_record_m2_25]
  exact ⟨hWt, rfl, hpos, hneg, hlo, hhi, rfl, rfl, by decide⟩

/-- Instance of C12 amended: the offset -2.25, which is `-9 * 2 ^ (-2)`,
with whole part -2 and nanoseconds -250000000. -/
theorem set_offset_then_status_witness :
    (-9 / 4 : ℚ) = ((-9 : Int) : ℚ) * 2 ^ (-2 : Int) ∧
    (-2 : Int) = (if (-9 / 4 : ℚ) ≥ 0 then ⌊(-9 / 4 : ℚ)⌋ else ⌈(-9 / 4 : ℚ)⌉) ∧
    read_config (set_mock_time_offset_seconds true none (-9 / 4)) =
      some ⟨true, true, 0, 0, -2, -250000000⟩ :=
  have hW : (-2 : Int) = (if (-9 / 4 : ℚ) ≥ 0 then ⌊(-9 / 4 : ℚ)⌋ else ⌈(-9 / 4 : ℚ)⌉) := by
    have hce : ⌈(-9 / 4 : ℚ)⌉ = -2 := by
      rw [Int.ceil_eq_iff]
      norm_num
    rw [if_neg (by norm_num), hce]
  have hN : (-250000000 : Int) =
      to_long (round_double (((-9 / 4 : ℚ) - ((-2 : Int) : ℚ)) * 1000000000)) := by
    have e1 : ((-9 / 4 : ℚ) - ((-2 : Int) : ℚ)) * 1000000000 = ((-250000000 : Int) : ℚ) := by
      norm_num
    rw [e1, round_double_intCast _ (by decide), to_long_intCast]
  ⟨by norm_num, hW,
    (set_offset_then_status none (-9 / 4) (-9) (-2) (-2) (-250000000) (by norm_num)
      (by norm_num) (by decide) hW hN (by decide)).2.2.2.2.2.2.1⟩

/-- C13, as stated, fails when `fopen` for writing fails: after
`set_mock_time_epoch` on 100.5 the file still holds the disabled record and
`clock_gettime(CLOCK_REALTIME)` returns the real reading. -/
theorem set_epoch_clock_unopened_counterexample :
    clock_gettime (set_mock_time_epoch false (some "0 0 0 0 0 0\n".toList) (201 / 2))
        CLOCK_REALTIME 0 ⟨1700000000, 5⟩ = (0, ⟨1700000000, 5⟩) ∧
    clock_gettime (set_mock_time_epoch false (some "0 0 0 0 0 0\n".toList) (201 / 2))
        CLOCK_REALTIME 0 ⟨1700000000, 5⟩ ≠ (0, ⟨100, 500000000⟩) := by
  have h : set_mock_time_epoch false (some "0 0 0 0 0 0\n".toList) (201 / 2) =
      some "0 0 0 0 0 0\n".toList := by
    simp [set_mock_time_epoch, write_config]
  rw [h]
  decide

/-- C13, amended. When `fopen` for writing succeeds, after
`set_mock_time_epoch` on a binary64 value `x` whose floor fits `long long`,
`clock_gettime(CLOCK_REALTIME)` with any successful real reading returns
exactly `tv_sec = floor(x)` and `tv_nsec = (x - floor(x)) * 1e9` truncated
toward zero (difference and product in `double` arithmetic), both within
their types; for `x = 0` this is `(0, 0)` and for `x = -0.25` it is
`(-1, 750000000)`. -/
theorem set_epoch_then_clock (old : ConfFile) (x : ℚ) (m e : Int) (real_tp : Timespec)
    (hx : x = (m : ℚ) * 2 ^ e) (hm : |m| < 2 ^ 53) (hr : in_long ⌊x⌋ = true) :
    clock_gettime (set_mock_time_epoch true old x) CLOCK_REALTIME 0 real_tp =
      (0, ⟨⌊x⌋, to_long (round_double (round_double (x - (⌊x⌋ : Int)) * 1000000000))⟩) ∧
    in_long (clock_gettime (set_mock_time_epoch true old x) CLOCK_REALTIME 0
      real_tp).2.tv_sec = true ∧
    in_long (clock_gettime (set_mock_time_epoch true old x) CLOCK_REALTIME 0
      real_tp).2.tv_nsec = true ∧
    clock_gettime (set_mock_time_epoch true old 0) CLOCK_REALTIME 0 real_tp = (0, ⟨0, 0⟩) ∧
    clock_gettime (set_mock_time_epoch true old (-1 / 4)) CLOCK_REALTIME 0 real_tp =
      (0, ⟨-1, 750000000⟩) := by
  subst hx
  obtain ⟨hN, hN0, hN1⟩ := frac_nsec_floor_bounds m e hm
  have hset : set_mock_time_epoch true old ((m : ℚ) * 2 ^ e) =
      some (record_text true false ⌊(m : ℚ) * 2 ^ e⌋
        (frac_nsec ((m : ℚ) * 2 ^ e) ⌊(m : ℚ) * 2 ^ e⌋) 0 0) := by
    simp [set_mock_time_epoch, write_config]
  have hzero : set_mock_time_epoch true old 0 = some "1 0 0 0 0 0\n".toList := by
    have hn : frac_nsec 0 0 = 0 :=
      frac_nsec_eval 0 0 0 0 (by decide) (by simp [round_double_zero]) (by norm_num)
        (by decide)
    rw [set_mock_time_epoch, Int.floor_zero, hn]
    simp only [write_config, if_true]
    decide
  have hclock : ∀ a b : Int,
      clock_gettime (some (record_text true false a b 0 0)) CLOCK_REALTIME 0 real_tp =
        (0, ⟨a, b⟩) := by
    intro a b
    simp [clock_gettime, read_config_record]
  refine ⟨?_, ?_, ?_, ?_, ?_⟩
  · rw [← hN, hset, hclock]
  · rw [hset, hclock]
    exact hr
  · rw [hset, hclock]
    show in_long (frac_nsec ((m : ℚ) * 2 ^ e) ⌊(m : ℚ) * 2 ^ e⌋) = true
    exact in_long_of_bounds _ (le_trans (by decide) hN0) hN1
  · rw [hzero]
    have : "1 0 0 0 0 0\n".toList = record_text true false 0 0 0 0 := by decide
    rw [this, hclock]
  · rw [epoch_record_m0_25]
    have : "1 0 -1 750000000 0 0\n".toList = record_text true false (-1) 750000000 0 0 := by
      decide
    rw [this, hclock]

/-- Instance of C13 amended: the epoch 100.5, whose floor 100 fits
`long long`. -/
theorem set_epoch_then_clock_witness :
    (201 / 2 : ℚ) = ((201 : Int) : ℚ) * 2 ^ (-1 : Int) ∧
    in_long ⌊(201 / 2 : ℚ)⌋ = true ∧
    clock_gettime (set_mock_time_epoch true none (201 / 2)) CLOCK_REALTIME 0
        ⟨1700000000, 5⟩ =
      (0, ⟨⌊(201 / 2 : ℚ)⌋,
        to_long (round_double
          (round_double ((201 / 2 : ℚ) - (⌊(201 / 2 : ℚ)⌋ : Int)) * 1000000000))⟩) :=
  have hr : in_long ⌊(201 / 2 : ℚ)⌋ = true := by
    have h : ⌊(201 / 2 : ℚ)⌋ = 100 := by
      rw [Int.floor_eq_iff]
      norm_num
    rw [h]
    decide
  ⟨by norm_num, hr,
    (set_epoch_then_clock none (201 / 2) 201 (-1) ⟨1700000000, 5⟩ (by norm_num)
      (by norm_num) hr).1⟩

/-- C14, as stated, fails: the record written by
`set_mock_time_offset_seconds` for -2.25 has `off_nsec = -250000000`, below
0; and the record written by `set_mock_time_epoch` for `-2 ^ (-60)` has
`fixed_nsec = 1000000000`, not below `1e9`. -/
theorem written_nanos_counterexample :
    read_config (set_mock_time_offset_seconds true none (-9 / 4)) =
      some ⟨true, true, 0, 0, -2, -250000000⟩ ∧
    ¬ (0 ≤ (-250000000 : Int)) ∧
    read_config (set_mock_time_epoch true none (-(1 / 2 ^ 60))) =
      some ⟨true, false, -1, 1000000000, 0, 0⟩ ∧
    ¬ ((1000000000 : Int) < 1000000000) := by
  rw [offset_record_m2_25, epoch_record_tiny_negative]
  decide

/-- C14, amended. For every binary64 input `x` whose floor fits
`long long`: the record written by `set_mock_time_epoch` has its seconds
within `long long`, `fixed_nsec ≥ 0`, `fixed_nsec < 1e9` whenever the
`double` difference `x - floor(x)` is below 1, in particular whenever
`x ≥ 0`, and `off_nsec = 0`; the record written by
`set_mock_time_offset_seconds` has its seconds within `long long`,
`-1e9 < off_nsec < 1e9`, non-negative for `x ≥ 0` and non-positive for
`x < 0`, and `fixed_nsec = 0`; the record written by `clear_mock_time` has
0 in both. -/
theorem written_nanos_range (old : ConfFile) (x : ℚ) (m e : Int)
    (hx : x = (m : ℚ) * 2 ^ e) (hm : |m| < 2 ^ 53) (he : -1074 ≤ e)
    (hr : in_long ⌊x⌋ = true) :
    (∃ cfg, read_config (set_mock_time_epoch true old x) = some cfg ∧
      cfg.fixed_sec = ⌊x⌋ ∧ in_long cfg.fixed_sec = true ∧
      0 ≤ cfg.fixed_nsec ∧
      (round_double (x - (⌊x⌋ : Int)) < 1 → cfg.fixed_nsec < 1000000000) ∧
      (0 ≤ x → cfg.fixed_nsec < 1000000000) ∧
      cfg.off_nsec = 0) ∧
    (∃ cfg, read_config (set_mock_time_offset_seconds true old x) = some cfg ∧
      cfg.off_sec = (if x ≥ 0 then ⌊x⌋ else ⌈x⌉) ∧ in_long cfg.off_sec = true ∧
      -1000000000 < cfg.off_nsec ∧ cfg.off_nsec < 1000000000 ∧
      (0 ≤ x → 0 ≤ cfg.off_nsec) ∧ (x < 0 → cfg.off_nsec ≤ 0) ∧
      cfg.fixed_nsec = 0) ∧
    read_config (clear_mock_time true old) = some ⟨false, false, 0, 0, 0, 0⟩ := by
  subst hx
  refine ⟨?_, ?_, ?_⟩
  · have hset : set_mock_time_epoch true old ((m : ℚ) * 2 ^ e) =
        some (record_text true false ⌊(m : ℚ) * 2 ^ e⌋
          (frac_nsec ((m : ℚ) * 2 ^ e) ⌊(m : ℚ) * 2 ^ e⌋) 0 0) := by
      simp [set_mock_time_epoch, write_config]
    refine ⟨_, by rw [hset, read_config_record], rfl, hr, ?_, ?_, ?_, rfl⟩
    · exact (frac_nsec_floor_bounds m e hm).2.1
    · intro h1
      exact frac_nsec_floor_lt m e hm h1
    · intro h0
      have := (frac_nsec_of_nonneg m e hm he h0).2.2
      show frac_nsec ((m : ℚ) * 2 ^ e) ⌊(m : ℚ) * 2 ^ e⌋ < 1000000000
      omega
  · by_cases h0 : (m : ℚ) * 2 ^ e ≥ 0
    · have hset : set_mock_time_offset_seconds true old ((m : ℚ) * 2 ^ e) =
          some (record_text true true 0 0 ⌊(m : ℚ) * 2 ^ e⌋
            (frac_nsec ((m : ℚ) * 2 ^ e) ⌊(m : ℚ) * 2 ^ e⌋)) := by
        simp [set_mock_time_offset_seconds, write_config, h0]
      obtain ⟨_, h2, h3⟩ := frac_nsec_of_nonneg m e hm he h0
      refine ⟨_, by rw [hset, read_config_record], ?_, hr, ?_, ?_, ?_, ?_, rfl⟩
      · rw [if_pos h0]
      · show -1000000000 < frac_nsec ((m : ℚ) * 2 ^ e) ⌊(m : ℚ) * 2 ^ e⌋
        omega
      · show frac_nsec ((m : ℚ) * 2 ^ e) ⌊(m : ℚ) * 2 ^ e⌋ < 1000000000
        omega
      · exact fun _ => h2
      · exact fun hlt => absurd h0 (not_le.mpr hlt)
    · have hset : set_mock_time_offset_seconds true old ((m : ℚ) * 2 ^ e) =
          some (record_text true true 0 0 ⌈(m : ℚ) * 2 ^ e⌉
            (frac_nsec ((m : ℚ) * 2 ^ e) ⌈(m : ℚ) * 2 ^ e⌉)) := by
        simp [set_mock_time_offset_seconds, write_config, h0]
      obtain ⟨_, h2, h3⟩ := frac_nsec_of_neg m e hm he (not_le.mp h0)
      have hceil : in_long ⌈(m : ℚ) * 2 ^ e⌉ = true := by
        have h1 := Int.floor_le_ceil ((m : ℚ) * 2 ^ e)
        have h4 : ⌈(m : ℚ) * 2 ^ e⌉ ≤ 0 := by
          rw [Int.ceil_le]
          push_cast
          exact le_of_lt (not_le.mp h0)
        simp only [in_long, Bool.and_eq_true, decide_eq_true_eq] at hr ⊢
        constructor <;> omega
      refine ⟨_, by rw [hset, read_config_record], ?_, hceil, ?_, ?_, ?_, ?_, rfl⟩
      · rw [if_neg h0]
      · show -1000000000 < frac_nsec ((m : ℚ) * 2 ^ e) ⌈(m : ℚ) * 2 ^ e⌉
        omega
      · show frac_nsec ((m : ℚ) * 2 ^ e) ⌈(m : ℚ) * 2 ^ e⌉ < 1000000000
        omega
      · exact fun hge => absurd hge h0
      · exact fun _ => h3
  · have hw : clear_mock_time true old = some "0 0 0 0 0 0\n".toList := by
      simp only [clear_mock_time, write_config, if_true]
      decide
    rw [hw]
    decide

/-- Instance of C14 amended: the input -2.25, which is `-9 * 2 ^ (-2)` and
whose floor -3 fits `long long`. -/
theorem written_nanos_range_witness :
    (-9 / 4 : ℚ) = ((-9 : Int) : ℚ) * 2 ^ (-2 : Int) ∧
    in_long ⌊(-9 / 4 : ℚ)⌋ = true ∧
    ∃ cfg, read_config (set_mock_time_offset_seconds true none (-9 / 4)) = some cfg ∧
      cfg.off_sec = (if (-9 / 4 : ℚ) ≥ 0 then ⌊(-9 / 4 : ℚ)⌋ else ⌈(-9 / 4 : ℚ)⌉) ∧
      in_long cfg.off_sec = true ∧
      -1000000000 < cfg.off_nsec ∧ cfg.off_nsec < 1000000000 ∧
      ((0 : ℚ) ≤ -9 / 4 → 0 ≤ cfg.off_nsec) ∧ ((-9 / 4 : ℚ) < 0 → cfg.off_nsec ≤ 0) ∧
      cfg.fixed_nsec = 0 :=
  have hr : in_long ⌊(-9 / 4 : ℚ)⌋ = true := by
    have h : ⌊(-9 / 4 : ℚ)⌋ = -3 := by
      rw [Int.floor_eq_iff]
      norm_num
    rw [h]
    decide
  ⟨by norm_num, hr,
    (written_nanos_range none (-9 / 4) (-9) (-2) (by norm_num) (by norm_num) (by decide)
      hr).2.1⟩

end PgMockTime
